import Mathlib

/-!
Verification of the IMP bytecode toolchain (codegen + stack interpreter)
against its natural-language specification.

The development shallowly embeds the C++ sources:
  * `src/interp.cpp`  — the fetch/decode/execute loop (`Interp::Run`),
    modelled here per decoded instruction (`Interp.execInstr`);
  * `src/codegen.cpp` — AST lowering to a flat byte stream (`Codegen.*`);
  * `src/parser.cpp`  — the recursive-descent expression parser
    (`Parser.*`), modelled over a token list.

Machine integers are modelled as `Int`/`Nat` with explicit wraparound
(`% 2 ^ 64`) where C++ overflow semantics matter.  Fallible code returns
`Except`.  Headers that are not part of the sources (interp.h, codegen.h,
program.h) are modelled from the specification; each such definition
carries a doc comment starting with `Modelled from the spec:`.
-/

/-- Two's-complement wraparound of an integer into the signed 64-bit
range, the value a C++ `long`/`int64_t` holds after an overflowing
operation on a little-endian two's-complement host. -/
def toInt64 (x : Int) : Int := (x + 2 ^ 63) % 2 ^ 64 - 2 ^ 63

namespace Interp

/-- Runtime faults raised by the interpreter (`RuntimeError` in
interp.cpp), tagged by constructor; `RTErr.message` recovers the exact
C++ message string. -/
inductive RTErr where
  | overflowError
  | divisionByZero
  | cannotCallInteger
  | typeError
  | stackFault
deriving DecidableEq, Repr

/-- Message string carried by each runtime fault, as thrown by
interp.cpp (`typeError` and `stackFault` cover the implicit faults of
spec section 7: non-Int operands and out-of-range stack access). -/
def RTErr.message : RTErr → String
  | .overflowError => "overflow error"
  | .divisionByZero => "division by 0"
  | .cannotCallInteger => "cannot call integer"
  | .typeError => "type error"
  | .stackFault => "stack fault"

/-- Runtime value: tagged union over Int / Addr / Proto (spec section
3.3); a `proto` is identified by an opaque index into the primitive
table. -/
inductive Value where
  | int (n : Int)
  | addr (a : Nat)
  | proto (fn : Nat)
deriving DecidableEq, Repr

/-- Decoded instruction: one opcode together with its immediates, as
read off the stream by `Interp::Run` (src/interp.cpp). -/
inductive Instr where
  | push_func (a : Nat)
  | push_proto (fn : Nat)
  | push_int (n : Int)
  | peek (idx : Nat)
  | pop
  | call
  | add
  | sub
  | mul
  | div
  | mod
  | greater
  | lower
  | greater_eq
  | lower_eq
  | is_eq
  | ret (depth nargs : Nat)
  | jump_false (a : Nat)
  | jump (a : Nat)
  | stop
deriving DecidableEq, Repr

/-- Interpreter state: the value stack (head = top of stack, matching
`stack_.rbegin()` indexing) and the program counter, holding the offset
just past the current instruction's immediates. -/
structure State where
  stack : List Value
  pc : Nat
deriving DecidableEq, Repr

/-- Modelled from the spec: interp.h is not under src/.  `Pop` removes
and returns the top of the stack; popping an empty stack is an
implementation fault (spec section 4.2: "Must not underflow"). -/
def popV : List Value → Except RTErr (Value × List Value)
  | [] => .error .stackFault
  | v :: rest => .ok (v, rest)

/-- Modelled from the spec: interp.h is not under src/.  `PopInt` pops
the top of the stack and requires it to be an `Int`; arithmetic on a
non-Int raises the implicit "type error" fault (spec section 7). -/
def popInt : List Value → Except RTErr (Int × List Value)
  | [] => .error .stackFault
  | .int n :: rest => .ok (n, rest)
  | _ :: _ => .error .typeError

/-- Modelled from the spec: interp.h is not under src/.  `PopAddr` pops
the top of the stack and requires it to be an `Addr` (spec section 4.2:
RET pops "an `Addr` to restore `pc`"). -/
def popAddr : List Value → Except RTErr (Nat × List Value)
  | [] => .error .stackFault
  | .addr a :: rest => .ok (a, rest)
  | _ :: _ => .error .typeError

/-- Truth test used by JUMP_FALSE: a value is false iff it is an `Int`
equal to zero (spec section 3.3; `Value::operator bool` lives in the
absent header). -/
def truthy (v : Value) : Bool := v ≠ Value.int 0

/-- One dispatch step of src/interp.cpp `Interp::Run`, on a decoded
instruction.  `prims` gives the semantics of the host primitives
(`*callee.Val.Proto` is a call into the opaque runtime table).  The
arithmetic mirrors the C++ statement for statement: results are first
wrapped to 64 bits (`toInt64`), then the overflow guards of ADD/SUB
inspect the wrapped result's sign exactly as the source does. -/
def execInstr (prims : Nat → State → Except RTErr State) :
    Instr → State → Except RTErr State
  | .push_func a, s => .ok { s with stack := .addr a :: s.stack }
  | .push_proto fn, s => .ok { s with stack := .proto fn :: s.stack }
  | .push_int n, s => .ok { s with stack := .int (toInt64 n) :: s.stack }
  | .peek idx, s =>
    match s.stack[idx]? with
    | some v => .ok { s with stack := v :: s.stack }
    | none => .error .stackFault
  | .pop, s => do
    let (_, rest) ← popV s.stack
    .ok { s with stack := rest }
  | .call, s => do
    let (callee, rest) ← popV s.stack
    match callee with
    | .proto fn => prims fn { s with stack := rest }
    | .addr a => .ok { stack := .addr s.pc :: rest, pc := a }
    | .int _ => .error .cannotCallInteger
  | .add, s => do
    let (rhs, st1) ← popInt s.stack
    let (lhs, st2) ← popInt st1
    let res := toInt64 (rhs + lhs)
    if res < 0 ∧ 0 ≤ rhs ∧ 0 ≤ lhs then .error .overflowError
    else if 0 ≤ res ∧ rhs < 0 ∧ lhs < 0 then .error .overflowError
    else .ok { s with stack := .int res :: st2 }
  | .sub, s => do
    let (rhs, st1) ← popInt s.stack
    let (lhs, st2) ← popInt st1
    let res := toInt64 (lhs - rhs)
    if 0 < res ∧ 0 ≤ rhs ∧ lhs ≤ 0 then .error .overflowError
    else if res < 0 ∧ rhs < 0 ∧ 0 ≤ lhs then .error .overflowError
    else .ok { s with stack := .int res :: st2 }
  | .mul, s => do
    let (rhs, st1) ← popInt s.stack
    let (lhs, st2) ← popInt st1
    .ok { s with stack := .int (toInt64 (rhs * lhs)) :: st2 }
  | .div, s => do
    let (rhs, st1) ← popInt s.stack
    let (lhs, st2) ← popInt st1
    if rhs = 0 then .error .divisionByZero
    else .ok { s with stack := .int (toInt64 (Int.tdiv lhs rhs)) :: st2 }
  | .mod, s => do
    let (rhs, st1) ← popInt s.stack
    let (lhs, st2) ← popInt st1
    if rhs = 0 then .error .divisionByZero
    else .ok { s with stack := .int (toInt64 (Int.tmod lhs rhs)) :: st2 }
  | .greater, s => do
    let (rhs, st1) ← popInt s.stack
    let (lhs, st2) ← popInt st1
    .ok { s with stack := .int (if lhs < rhs then 1 else 0) :: st2 }
  | .lower, s => do
    let (rhs, st1) ← popInt s.stack
    let (lhs, st2) ← popInt st1
    .ok { s with stack := .int (if rhs < lhs then 1 else 0) :: st2 }
  | .greater_eq, s => do
    let (rhs, st1) ← popInt s.stack
    let (lhs, st2) ← popInt st1
    .ok { s with stack := .int (if lhs ≤ rhs then 1 else 0) :: st2 }
  | .lower_eq, s => do
    let (rhs, st1) ← popInt s.stack
    let (lhs, st2) ← popInt st1
    .ok { s with stack := .int (if rhs ≤ lhs then 1 else 0) :: st2 }
  | .is_eq, s => do
    let (rhs, st1) ← popInt s.stack
    let (lhs, st2) ← popInt st1
    .ok { s with stack := .int (if rhs = lhs then 1 else 0) :: st2 }
  | .ret depth nargs, s => do
    let (v, st1) ← popV s.stack
    if depth ≤ st1.length then
      let (a, st3) ← popAddr (st1.drop depth)
      if nargs ≤ st3.length then
        .ok { stack := v :: st3.drop nargs, pc := a }
      else .error .stackFault
    else .error .stackFault
  | .jump_false a, s => do
    let (cond, rest) ← popV s.stack
    if truthy cond then .ok { s with stack := rest }
    else .ok { stack := rest, pc := a }
  | .jump a, s => .ok { s with pc := a }
  | .stop, s => .ok s

/-- Primitive table used by concrete evaluations; its entries are never
invoked by any of the theorems below. -/
def demoPrims : Nat → State → Except RTErr State := fun _ s => .ok s

end Interp

namespace Codegen

/-- Little-endian encoding of `n` into `w` bytes.  Spec section 3.1
stores stream values with raw unaligned copies in host byte order; the
host is little-endian (design note in spec section 9 prefers an
explicit little-endian serialisation). -/
def leBytes : Nat → Nat → List Nat
  | 0, _ => []
  | w + 1, n => n % 256 :: leBytes w (n / 256)

/-- Little-endian read of `w` bytes of `code` starting at `loc`
(missing bytes read as 0), the inverse of `leBytes`. -/
def readLE : Nat → List Nat → Nat → Nat
  | 0, _, _ => 0
  | w + 1, code, loc => code.getD loc 0 + 256 * readLE w code (loc + 1)

/-- Overwrite the bytes of `code` at positions `loc, loc+1, …` with
`bs`, as `memcpy(code_.data() + loc, …)` does. -/
def patchBytes : List Nat → Nat → List Nat → List Nat
  | code, _, [] => code
  | code, loc, b :: bs => patchBytes (code.set loc b) (loc + 1) bs

/-- Modelled from the spec: program.h is not under src/.  Opcodes are a
single unsigned byte drawn from the closed set of spec section 3.2, in
its enumeration order. -/
inductive Opcode where
  | PUSH_FUNC
  | PUSH_PROTO
  | PUSH_INT
  | PEEK
  | POP
  | CALL
  | ADD
  | SUB
  | MUL
  | DIV
  | MOD
  | GREATER
  | LOWER
  | GREATER_EQ
  | LOWER_EQ
  | IS_EQ
  | RET
  | JUMP_FALSE
  | JUMP
  | STOP
deriving DecidableEq, Repr

/-- Byte value of an opcode: its position in the spec's enumeration. -/
def Opcode.toByte : Opcode → Nat
  | .PUSH_FUNC => 0
  | .PUSH_PROTO => 1
  | .PUSH_INT => 2
  | .PEEK => 3
  | .POP => 4
  | .CALL => 5
  | .ADD => 6
  | .SUB => 7
  | .MUL => 8
  | .DIV => 9
  | .MOD => 10
  | .GREATER => 11
  | .LOWER => 12
  | .GREATER_EQ => 13
  | .LOWER_EQ => 14
  | .IS_EQ => 15
  | .RET => 16
  | .JUMP_FALSE => 17
  | .JUMP => 18
  | .STOP => 19

/-- Reduction to a 32-bit unsigned value, as C++ `unsigned`/`uint32_t`
arithmetic produces. -/
def u32 (n : Nat) : Nat := n % 2 ^ 32

/-- Unsigned 32-bit subtraction `a - b` with wraparound, as C++
computes `depth_ - binding.Index`. -/
def u32sub (a b : Nat) : Nat := (u32 a + 2 ^ 32 - u32 b) % 2 ^ 32

/-- Binary-operator kinds of `BinaryExpr` (ast.h is not under src/;
the set is read off the dispatch in `Codegen::LowerBinaryExpr` and
`Parser::ParseCompExpr` etc.). -/
inductive BinKind where
  | add
  | sub
  | mul
  | div
  | mod
  | greater
  | lower
  | greater_eq
  | lower_eq
  | is_eq
deriving DecidableEq, Repr

mutual

/-- Expression AST consumed by codegen (spec section 2): `Ref`,
`Binary`, `Call`, `Int`; an `IntExpr` carries a `uint64_t`. -/
inductive Expr where
  | ref (name : String)
  | intE (n : Nat)
  | binary (k : BinKind) (lhs rhs : Expr)
  | call (callee : Expr) (args : ExprList)

/-- Argument list of a call, as a mutual inductive so that structural
recursion over the tree is available. -/
inductive ExprList where
  | nil
  | cons (e : Expr) (es : ExprList)

end

/-- Length of an argument list. -/
def ExprList.length : ExprList → Nat
  | .nil => 0
  | .cons _ es => es.length + 1

mutual

/-- Statement AST consumed by codegen (spec section 2): `Block`,
`While`, `If`, `Expr`, `Return`, `Let`; a `Let`'s initialiser is
optional, a type annotation is carried but unused by codegen. -/
inductive Stmt where
  | block (body : StmtList)
  | whileS (cond : Expr) (body : Stmt)
  | ifS (cond : Expr) (thenS : Stmt) (elseS : OptStmt)
  | exprS (e : Expr)
  | returnS (e : Expr)
  | letS (name ty : String) (init : Option Expr)

/-- Statement sequence of a block. -/
inductive StmtList where
  | nil
  | cons (s : Stmt) (ss : StmtList)

/-- Optional else-branch of an `If`. -/
inductive OptStmt where
  | none
  | some (s : Stmt)

end

/-- Top-level module item (spec section 2): a function declaration
(argument names listed in declaration order; types are unused by
codegen), a prototype declaration naming a runtime primitive, or a
top-level statement. -/
inductive Item where
  | protoD (name primitiveName : String)
  | funcD (name : String) (args : List String) (body : StmtList)
  | stmtD (s : Stmt)

/-- Modules are ordered sequences of top-level items. -/
abbrev Module := List Item

/-- First-match association-list lookup, the behaviour of
`std::map::find` on the maps built here (all inserts keep keys
unique). -/
def lookupA {β : Type} : List (String × β) → String → Option β
  | [], _ => none
  | (k, v) :: rest, key => if k = key then some v else lookupA rest key

/-- Association-list lookup keyed by labels (`labelToAddress_`). -/
def lookupL {β : Type} : List (Nat × β) → Nat → Option β
  | [], _ => none
  | (k, v) :: rest, key => if k = key then some v else lookupL rest key

/-- Insert that keeps an existing entry (`std::map::emplace`). -/
def insertA {β : Type} (m : List (String × β)) (k : String) (v : β) :
    List (String × β) :=
  match lookupA m k with
  | some _ => m
  | none => m ++ [(k, v)]

/-- Label-keyed insert that keeps an existing entry
(`labelToAddress_.emplace`). -/
def insertL {β : Type} (m : List (Nat × β)) (k : Nat) (v : β) :
    List (Nat × β) :=
  match lookupL m k with
  | some _ => m
  | none => m ++ [(k, v)]

/-- Insert-or-assign (`args[name] = value`). -/
def assignA {β : Type} : List (String × β) → String → β → List (String × β)
  | [], key, v => [(key, v)]
  | (k, w) :: rest, key, v =>
    if k = key then (k, v) :: rest else (k, w) :: assignA rest key v

/-- Codegen errors are assertions (spec section 7): unbound name,
stack-depth mismatch, a local declared in a scope without locals
storage, a prototype missing from the runtime table, a function name
missing its minted label. -/
inductive CGErr where
  | unboundName
  | depthAssert
  | noLocalSlot
  | missingProto
  | missingFuncLabel
deriving DecidableEq, Repr

/-- Binding produced by scope lookup (`Codegen::Binding`): a function
entry label, a runtime primitive, an argument index, or a local's
depth snapshot. -/
inductive Binding where
  | FUNC (entry : Nat)
  | PROTO (fn : Nat)
  | ARG (index : Nat)
  | LOCAL (index : Nat)
deriving DecidableEq, Repr

/-- Scope chain (spec section 3.4): the global scope holds the
function-label and primitive maps; a function scope maps argument
names to indices; a block scope maps local names to depth snapshots.
RuntimeFn values are opaque indices into the primitive table. -/
inductive Scope where
  | global (funcs protos : List (String × Nat))
  | func (parent : Scope) (args : List (String × Nat))
  | block (parent : Scope) (locals : List (String × Nat))

/-- Name resolution, mirroring the three `Lookup` overloads in
src/codegen.cpp: the global scope consults functions before
prototypes and asserts if both miss; inner scopes consult their own
map first and then delegate to the parent. -/
def Scope.lookup : Scope → String → Except CGErr Binding
  | .global funcs protos, name =>
    match lookupA funcs name with
    | some entry => .ok (.FUNC entry)
    | none =>
      match lookupA protos name with
      | some fn => .ok (.PROTO fn)
      | none => .error .unboundName
  | .func parent args, name =>
    match lookupA args name with
    | some idx => .ok (.ARG idx)
    | none => parent.lookup name
  | .block parent locals, name =>
    match lookupA locals name with
    | some idx => .ok (.LOCAL idx)
    | none => parent.lookup name

/-- Modelled from the spec: codegen.h is not under src/.  Spec section
3.4 gives only `BlockScope` a locals map (and `GlobalScope::Lookup` in
src/codegen.cpp resolves no locals), so `AddLocal` records the binding
in a block scope — most recent first, one entry per declaration, spec
section 4.1 pops "one `POP` per local declared directly in this
block" — and is a codegen assertion failure on the other scopes. -/
def Scope.addLocal : Scope → String → Nat → Except CGErr Scope
  | .block parent locals, name, d => .ok (.block parent ((name, d) :: locals))
  | .global _ _, _, _ => .error .noLocalSlot
  | .func _ _, _, _ => .error .noLocalSlot

/-- Number of locals declared directly in a block scope
(`BlockScope::NumberOfLocals`). -/
def Scope.numberOfLocals : Scope → Nat
  | .block _ locals => locals.length
  | _ => 0

/-- Codegen state: the byte stream, the static depth counter, the
label mint, the resolved-label map, the pending-fixup table, the
function-name map (`funcs_`), and the argument count of the function
currently being lowered (`func_`, `none` at top level). -/
structure CGState where
  code : List Nat
  depth : Nat
  nextLabel : Nat
  labelToAddress : List (Nat × Nat)
  fixups : Nat → List Nat
  funcs : List (String × Nat)
  funcArgs : Option Nat

/-- Empty codegen state (`Translate`'s precondition). -/
def initState : CGState :=
  { code := [], depth := 0, nextLabel := 0, labelToAddress := [],
    fixups := fun _ => [], funcs := [], funcArgs := none }

/-- Mint a fresh label (`Codegen::MakeLabel`). -/
def makeLabel (s : CGState) : Nat × CGState :=
  (s.nextLabel + 1, { s with nextLabel := s.nextLabel + 1 })

/-- Append raw bytes to the stream (`Codegen::Emit<T>`). -/
def emitBytes (bs : List Nat) (s : CGState) : CGState :=
  { s with code := s.code ++ bs }

/-- Append a single opcode byte. -/
def emitOp (op : Opcode) (s : CGState) : CGState :=
  emitBytes [op.toByte] s

/-- `Codegen::EmitLabel`: record the current stream offset for the
label and patch every pending fixup site — with a 4-byte
(`sizeof(unsigned)`) copy of the 64-bit offset, exactly as the
`memcpy` in src/codegen.cpp line 358 does. -/
def emitLabel (label : Nat) (s : CGState) : CGState :=
  let address := s.code.length
  { s with
    code := (s.fixups label).foldl
      (fun c loc => patchBytes c loc (leBytes 4 address)) s.code,
    labelToAddress := insertL s.labelToAddress label s.code.length }

/-- `Codegen::EmitFixup`: write the label's 8-byte address if it is
known, otherwise record the site and write an 8-byte placeholder. -/
def emitFixup (label : Nat) (s : CGState) : CGState :=
  match lookupL s.labelToAddress label with
  | some address => emitBytes (leBytes 8 address) s
  | none =>
    let loc := s.code.length
    emitBytes (leBytes 8 0)
      { s with
        fixups := fun l => if l = label then s.fixups l ++ [loc] else s.fixups l }

/-- `Codegen::EmitPop`: assert a positive depth, decrement it, emit
POP. -/
def emitPop (s : CGState) : Except CGErr CGState :=
  if s.depth = 0 then .error .depthAssert
  else .ok (emitOp .POP { s with depth := s.depth - 1 })

/-- Emit one POP per local declared directly in the closing block (the
loop in `Codegen::LowerBlockStmt`). -/
def emitPops : Nat → CGState → Except CGErr CGState
  | 0, s => .ok s
  | k + 1, s => do
    let s1 ← emitPop s
    emitPops k s1

/-- `Codegen::EmitCall`: emits the CALL opcode only (the argument
count is unused by the emitter). -/
def emitCall (s : CGState) : CGState :=
  emitOp .CALL s

/-- `Codegen::EmitPushFunc`: bump depth, emit PUSH_FUNC and a fixup
for the entry label. -/
def emitPushFunc (entry : Nat) (s : CGState) : CGState :=
  emitFixup entry (emitOp .PUSH_FUNC { s with depth := s.depth + 1 })

/-- `Codegen::EmitPushProto`: bump depth, emit PUSH_PROTO and the
8-byte primitive handle. -/
def emitPushProto (fn : Nat) (s : CGState) : CGState :=
  emitBytes (leBytes 8 fn) (emitOp .PUSH_PROTO { s with depth := s.depth + 1 })

/-- `Codegen::EmitPeek`: bump depth, emit PEEK and the 32-bit index. -/
def emitPeek (index : Nat) (s : CGState) : CGState :=
  emitBytes (leBytes 4 index) (emitOp .PEEK { s with depth := s.depth + 1 })

/-- `Codegen::EmitInt`: bump depth, emit PUSH_INT and the 64-bit
immediate. -/
def emitInt (n : Nat) (s : CGState) : CGState :=
  emitBytes (leBytes 8 n) (emitOp .PUSH_INT { s with depth := s.depth + 1 })

/-- `Codegen::EmitReturn`: assert a positive depth, decrement it, emit
RET with the decremented depth and the current function's argument
count (0 at top level) as 32-bit immediates. -/
def emitReturn (s : CGState) : Except CGErr CGState :=
  if s.depth = 0 then .error .depthAssert
  else
    let d := s.depth - 1
    .ok (emitBytes (leBytes 4 (s.funcArgs.getD 0))
      (emitBytes (leBytes 4 d) (emitOp .RET { s with depth := d })))

/-- Opcode emitted for a binary-operator kind (the dispatch in
`Codegen::LowerBinaryExpr`). -/
def BinKind.opcode : BinKind → Opcode
  | .add => .ADD
  | .sub => .SUB
  | .mul => .MUL
  | .div => .DIV
  | .mod => .MOD
  | .greater => .GREATER
  | .lower => .LOWER
  | .greater_eq => .GREATER_EQ
  | .lower_eq => .LOWER_EQ
  | .is_eq => .IS_EQ

/-- Shared body of the ten binary-operator emitters
(`EmitAdd` … `EmitIsEqual`): assert a positive depth, decrement it,
emit the opcode. -/
def emitBinary (k : BinKind) (s : CGState) : Except CGErr CGState :=
  if s.depth = 0 then .error .depthAssert
  else .ok (emitOp k.opcode { s with depth := s.depth - 1 })

/-- `Codegen::EmitJumpFalse`: assert a positive depth, decrement it,
emit JUMP_FALSE with a fixup for the target. -/
def emitJumpFalse (label : Nat) (s : CGState) : Except CGErr CGState :=
  if s.depth = 0 then .error .depthAssert
  else .ok (emitFixup label (emitOp .JUMP_FALSE { s with depth := s.depth - 1 }))

/-- `Codegen::EmitJump`: emit JUMP with a fixup for the target. -/
def emitJump (label : Nat) (s : CGState) : CGState :=
  emitFixup label (emitOp .JUMP s)

/-- `Codegen::LowerRefExpr`: resolve the name and emit the matching
push — `PUSH_FUNC` with a fixup, `PUSH_PROTO`, or a `PEEK` whose
index is computed in 32-bit unsigned arithmetic as `depth + i + 1`
for arguments and `depth - d` for locals. -/
def lowerRefExpr (scope : Scope) (name : String) (s : CGState) :
    Except CGErr CGState := do
  match ← scope.lookup name with
  | .FUNC entry => .ok (emitPushFunc entry s)
  | .PROTO fn => .ok (emitPushProto fn s)
  | .ARG i => .ok (emitPeek (u32 (s.depth + i + 1)) s)
  | .LOCAL d => .ok (emitPeek (u32sub s.depth d) s)

mutual

/-- `Codegen::LowerExpr`: dispatch on the expression kind. -/
def lowerExpr (scope : Scope) : Expr → CGState → Except CGErr CGState
  | .ref name, s => lowerRefExpr scope name s
  | .intE n, s => .ok (emitInt n s)
  | .binary k lhs rhs, s => do
    let s1 ← lowerExpr scope lhs s
    let s2 ← lowerExpr scope rhs s1
    emitBinary k s2
  | .call callee args, s => do
    let s1 ← lowerExprsRev scope args s
    let s2 ← lowerExpr scope callee s1
    let s3 := emitCall s2
    .ok { s3 with depth := s3.depth - args.length }
termination_by structural e _ => e

/-- `Codegen::LowerCallExpr`'s argument loop: arguments are lowered in
reverse source order (`arg_rbegin` to `arg_rend`). -/
def lowerExprsRev (scope : Scope) : ExprList → CGState → Except CGErr CGState
  | .nil, s => .ok s
  | .cons e es, s => do
    let s1 ← lowerExprsRev scope es s
    lowerExpr scope e s1
termination_by structural es _ => es

end

mutual

/-- `Codegen::LowerStmt`: dispatch on the statement kind.  Statements
may add locals to the innermost scope they receive (C++ mutates the
scope object), so the possibly-extended scope is returned. -/
def lowerStmt (scope : Scope) : Stmt → CGState → Except CGErr (CGState × Scope)
  | .block body, s => do
    let depthIn := s.depth
    let (s1, blockScope) ← lowerStmts (.block scope []) body s
    let s2 ← emitPops blockScope.numberOfLocals s1
    if s2.depth = depthIn then .ok (s2, scope) else .error .depthAssert
  | .whileS cond body, s => do
    let (entry, s1) := makeLabel s
    let (exitL, s2) := makeLabel s1
    let s3 := emitLabel entry s2
    let s4 ← lowerExpr scope cond s3
    let s5 ← emitJumpFalse exitL s4
    let (s6, scope1) ← lowerStmt scope body s5
    let s7 := emitJump entry s6
    .ok (emitLabel exitL s7, scope1)
  | .ifS cond thenS elseS, s => do
    let (entry, s1) := makeLabel s
    let (elseLabel, s2) := makeLabel s1
    let (exitL, s3) := makeLabel s2
    let s4 := emitLabel entry s3
    let s5 ← lowerExpr scope cond s4
    let s6 ← emitJumpFalse elseLabel s5
    let (s7, scope1) ← lowerStmt scope thenS s6
    let s8 := emitJump exitL s7
    let s9 := emitLabel elseLabel s8
    match elseS with
    | .none => .ok (emitLabel exitL s9, scope1)
    | .some e => do
      let (s10, scope2) ← lowerStmt scope1 e s9
      .ok (emitLabel exitL s10, scope2)
  | .exprS e, s => do
    let s1 ← lowerExpr scope e s
    let s2 ← emitPop s1
    .ok (s2, scope)
  | .returnS e, s => do
    let s1 ← lowerExpr scope e s
    let s2 ← emitReturn s1
    .ok (s2, scope)
  | .letS name _ init, s => do
    let s1 ← match init with
      | some e => lowerExpr scope e s
      | none => .ok s
    let scope1 ← scope.addLocal name (u32 s1.depth)
    .ok (s1, scope1)
termination_by structural st _ => st

/-- Sequential lowering of a block's statements, threading the scope
the statements extend. -/
def lowerStmts (scope : Scope) : StmtList → CGState → Except CGErr (CGState × Scope)
  | .nil, s => .ok (s, scope)
  | .cons st sts, s => do
    let (s1, scope1) ← lowerStmt scope st s
    lowerStmts scope1 sts s1
termination_by structural sts _ => sts

end

/-- `Codegen::LowerBlockStmt`: record the entry depth, lower the body
under a fresh block scope, emit one POP per local declared directly in
the block, and assert the exit depth equals the entry depth.  The
`Stmt.block` case of `lowerStmt` inlines this same body (structural
recursion needs the direct call there). -/
def lowerBlockStmt (scope : Scope) (body : StmtList) (s : CGState) :
    Except CGErr CGState := do
  let depthIn := s.depth
  let (s1, blockScope) ← lowerStmts (.block scope []) body s
  let s2 ← emitPops blockScope.numberOfLocals s1
  if s2.depth = depthIn then .ok s2 else .error .depthAssert

/-- Argument map of a function scope: iterate the declared names in
order and assign `args[name] = args.size()` (the size read before the
insertion, per C++17 sequencing). -/
def buildArgs (args : List String) : List (String × Nat) :=
  args.foldl (fun m name => assignA m name m.length) []

/-- `Codegen::LowerFuncDecl`: emit the function's entry label (minted
by the pre-pass), assert depth 0, lower the body as a block under a
function scope carrying the argument map, and assert depth 0 again. -/
def lowerFuncDecl (scope : Scope) (name : String) (args : List String)
    (body : StmtList) (s : CGState) : Except CGErr CGState := do
  match lookupA s.funcs name with
  | Option.none => .error .missingFuncLabel
  | Option.some entry =>
    let s1 := { emitLabel entry s with funcArgs := some args.length }
    if s1.depth = 0 then do
      let s2 ← lowerBlockStmt (.func scope (buildArgs args)) body s1
      if s2.depth = 0 then .ok { s2 with funcArgs := none }
      else .error .depthAssert
    else .error .depthAssert

/-- Pre-pass step of `Codegen::Translate` for one item: a prototype
looks up its primitive in the runtime table (asserting on a miss) and
binds the name; a function declaration mints a fresh label (the mint
always runs, the binding keeps a previous entry); statements are
skipped.  The accumulator carries the codegen state and the prototype
map. -/
def prepassItem (rt : List (String × Nat))
    (acc : CGState × List (String × Nat)) (item : Item) :
    Except CGErr (CGState × List (String × Nat)) :=
  match item with
  | .protoD name prim =>
    match lookupA rt prim with
    | Option.none => .error .missingProto
    | Option.some fn => .ok (acc.1, insertA acc.2 name fn)
  | .funcD name _ _ =>
    let (l, s1) := makeLabel acc.1
    .ok ({ s1 with funcs := insertA s1.funcs name l }, acc.2)
  | .stmtD _ => .ok acc

/-- Pre-pass of `Codegen::Translate` over the whole module, starting
from the empty state. -/
def prepass (rt : List (String × Nat)) (mdl : Module) :
    Except CGErr (CGState × List (String × Nat)) :=
  mdl.foldlM (prepassItem rt) (initState, [])

/-- Second phase of `Codegen::Translate`: lower every top-level
statement in source order under the global scope. -/
def runTopStmts : Module → CGState × Scope → Except CGErr (CGState × Scope)
  | [], acc => .ok acc
  | .stmtD st :: rest, acc => do
    let acc1 ← lowerStmt acc.2 st acc.1
    runTopStmts rest acc1
  | _ :: rest, acc => runTopStmts rest acc

/-- Final phase of `Codegen::Translate`: lower every function
declaration in source order. -/
def runFuncDecls (g : Scope) : Module → CGState → Except CGErr CGState
  | [], s => .ok s
  | .funcD name args body :: rest, s => do
    let s1 ← lowerFuncDecl g name args body s
    runFuncDecls g rest s1
  | _ :: rest, s => runFuncDecls g rest s

/-- `Codegen::Translate`: pre-pass the module into the global maps,
lower the top-level statements, emit STOP, then lower the function
bodies; `rt` is the process-wide runtime-primitive table
(`kRuntimeFns`, external to the core). -/
def translate (rt : List (String × Nat)) (mdl : Module) :
    Except CGErr CGState := do
  let (pre, protos) ← prepass rt mdl
  let g : Scope := .global pre.funcs protos
  let (s2, g2) ← runTopStmts mdl (pre, g)
  runFuncDecls g2 mdl (emitOp .STOP s2)

mutual

/-- Statements in which every `Let` carries an initialiser (the
shape under which spec section 4.1's depth accounting is claimed; a
`let` without initialiser is the open question of spec section 9). -/
def Stmt.wellInit : Stmt → Bool
  | .block body => body.wellInit
  | .whileS _ b => b.wellInit
  | .ifS _ t e => t.wellInit && e.wellInit
  | .exprS _ => true
  | .returnS _ => true
  | .letS _ _ init => init.isSome
termination_by structural st => st

/-- Statement lists in which every `Let` carries an initialiser. -/
def StmtList.wellInit : StmtList → Bool
  | .nil => true
  | .cons s ss => s.wellInit && ss.wellInit
termination_by structural ss => ss

/-- Optional statements in which every `Let` carries an initialiser. -/
def OptStmt.wellInit : OptStmt → Bool
  | .none => true
  | .some s => s.wellInit
termination_by structural os => os

end

/-- Every pending fixup site lies wholly (8 placeholder bytes) inside
the stream — true of every state the emitters produce, since
`EmitFixup` records the append position. -/
def FixOk (s : CGState) : Prop :=
  ∀ L loc, loc ∈ s.fixups L → loc + 8 ≤ s.code.length

/-- A label with a recorded address (`labelToAddress_`). -/
def isBound (s : CGState) (L : Nat) : Prop :=
  (lookupL s.labelToAddress L).isSome

/-- An unresolved pending label: it has fixup sites but no recorded
address yet. -/
def UP (s : CGState) (L : Nat) : Prop :=
  s.fixups L ≠ [] ∧ ¬isBound s L

/-- A function entry label: the value some function name maps to. -/
def funcLabel (s : CGState) (L : Nat) : Prop :=
  ∃ name, lookupA s.funcs name = some L

/-- Byte position `i` is clear of every pending 4-byte patch window. -/
def PatchSafe (i : Nat) (s : CGState) : Prop :=
  ∀ L loc, loc ∈ s.fixups L → loc + 4 ≤ i ∨ i < loc

/-- Every FUNC binding the scope chain can produce is a function
entry label of the state. -/
def ScopeOk (sc : Scope) (s : CGState) : Prop :=
  ∀ name entry, sc.lookup name = .ok (.FUNC entry) → funcLabel s entry

/-- State-evolution facts that hold across every emitter and lowering
step: the function map is fixed, the stream only grows, resolved
labels stay resolved at their address, well-placed fixups stay well
placed, the label mint only advances, and a byte clear of every patch
window keeps its value and stays clear. -/
structure Grows (s s1 : CGState) : Prop where
  funcs_eq : s1.funcs = s.funcs
  len_le : s.code.length ≤ s1.code.length
  next_le : s.nextLabel ≤ s1.nextLabel
  bound_mono : ∀ L a, lookupL s.labelToAddress L = some a →
    lookupL s1.labelToAddress L = some a
  fix_ok : FixOk s → FixOk s1
  byte_keep : ∀ i, i < s.code.length → PatchSafe i s →
    s1.code.getD i 0 = s.code.getD i 0 ∧ PatchSafe i s1

/-- Lowering a fragment may leave new pending fixups only for labels
in `X` (on top of those already pending). -/
def UPgrow (s s1 : CGState) (X : Nat → Prop) : Prop :=
  ∀ L, UP s1 L → UP s L ∨ X L

end Codegen

namespace Parser

/-- Token kinds of lexer.h `Token::Kind`; the complex kinds carry
their payloads. -/
inductive Tok where
  | FUNC
  | RETURN
  | WHILE
  | IF
  | ELSE
  | LET
  | LPAREN
  | RPAREN
  | LBRACE
  | RBRACE
  | COLON
  | SEMI
  | EQUAL
  | COMMA
  | PLUS
  | MINUS
  | MUL
  | DIV
  | MOD
  | GREATER
  | LOWER
  | GREATER_EQ
  | LOWER_EQ
  | IS_EQ
  | INT (n : Nat)
  | STRING (s : String)
  | IDENT (s : String)
  | END
deriving DecidableEq, Repr

/-- Parser errors: `ParserError` thrown by `Parser::Error`, plus fuel
exhaustion (a model artifact bounding the recursion used for the
loops of the recursive-descent functions). -/
inductive PErr where
  | unexpected
  | outOfFuel
deriving DecidableEq, Repr

/-- The lexer's current token: the head of the remaining stream, or
`END` at end of input (`Token()` defaults to EOF). -/
def curr : List Tok → Tok
  | [] => .END
  | t :: _ => t

/-- Advance the stream (`lexer_.Next()`); at end of input the lexer
keeps returning `END`. -/
def next : List Tok → List Tok
  | [] => []
  | _ :: ts => ts

/-- List-to-`ExprList` conversion for the argument vector collected by
`ParseCallExpr`. -/
def toExprList : List Codegen.Expr → Codegen.ExprList
  | [] => .nil
  | e :: es => .cons e (toExprList es)

/-- `Parser::ParseTermExpr`: an identifier or an integer literal;
anything else is a parse error. -/
def parseTermExpr (ts : List Tok) : Except PErr (Codegen.Expr × List Tok) :=
  match curr ts with
  | .IDENT s => .ok (.ref s, next ts)
  | .INT n => .ok (.intE n, next ts)
  | _ => .error .unexpected

mutual

/-- Modelled from the spec: `Parser::ParseExpr` is declared in the
absent parser.h; per the precedence list of spec section 4.1 the
entry of the expression grammar is the comparison level. -/
def parseExpr : Nat → List Tok → Except PErr (Codegen.Expr × List Tok)
  | 0, _ => .error .outOfFuel
  | fuel + 1, ts => parseCompExpr fuel ts
termination_by structural fuel _ => fuel

/-- `Parser::ParseCompExpr`: parse the additive level, then run the
comparison loop. -/
def parseCompExpr : Nat → List Tok → Except PErr (Codegen.Expr × List Tok)
  | 0, _ => .error .outOfFuel
  | fuel + 1, ts => do
    let (term, ts1) ← parseAddSubExpr fuel ts
    parseCompLoop fuel term ts1
termination_by structural fuel _ => fuel

/-- The `while` loop of `Parser::ParseCompExpr`: while the current
token is a comparison, skip it, parse the right operand — and then
choose the node kind by inspecting the token that is now current,
i.e. the token FOLLOWING the right operand, defaulting to `IS_EQ`
(src/parser.cpp lines 230-240). -/
def parseCompLoop : Nat → Codegen.Expr → List Tok →
    Except PErr (Codegen.Expr × List Tok)
  | 0, _, _ => .error .outOfFuel
  | fuel + 1, term, ts =>
    if curr ts = .GREATER ∨ curr ts = .LOWER ∨ curr ts = .GREATER_EQ ∨
        curr ts = .LOWER_EQ ∨ curr ts = .IS_EQ then do
      let (rhs, ts1) ← parseAddSubExpr fuel (next ts)
      let kind :=
        if curr ts1 = .GREATER then Codegen.BinKind.greater
        else if curr ts1 = .LOWER then .lower
        else if curr ts1 = .GREATER_EQ then .greater_eq
        else if curr ts1 = .LOWER_EQ then .lower_eq
        else .is_eq
      parseCompLoop fuel (.binary kind term rhs) ts1
    else .ok (term, ts)
termination_by structural fuel _ _ => fuel

/-- `Parser::ParseAddSubExpr`: parse the multiplicative level, then
run the additive loop. -/
def parseAddSubExpr : Nat → List Tok → Except PErr (Codegen.Expr × List Tok)
  | 0, _ => .error .outOfFuel
  | fuel + 1, ts => do
    let (term, ts1) ← parseMulDivModExpr fuel ts
    parseAddSubLoop fuel term ts1
termination_by structural fuel _ => fuel

/-- The `while` loop of `Parser::ParseAddSubExpr`: left-associative
`+` and `-`, the node kind chosen from the operator itself. -/
def parseAddSubLoop : Nat → Codegen.Expr → List Tok →
    Except PErr (Codegen.Expr × List Tok)
  | 0, _, _ => .error .outOfFuel
  | fuel + 1, term, ts =>
    if curr ts = .PLUS then do
      let (rhs, ts1) ← parseMulDivModExpr fuel (next ts)
      parseAddSubLoop fuel (.binary .add term rhs) ts1
    else if curr ts = .MINUS then do
      let (rhs, ts1) ← parseMulDivModExpr fuel (next ts)
      parseAddSubLoop fuel (.binary .sub term rhs) ts1
    else .ok (term, ts)
termination_by structural fuel _ _ => fuel

/-- `Parser::ParseMulDivModExpr`: parse the call level, then run the
multiplicative loop. -/
def parseMulDivModExpr : Nat → List Tok → Except PErr (Codegen.Expr × List Tok)
  | 0, _ => .error .outOfFuel
  | fuel + 1, ts => do
    let (term, ts1) ← parseCallExpr fuel ts
    parseMulDivModLoop fuel term ts1
termination_by structural fuel _ => fuel

/-- The `while` loop of `Parser::ParseMulDivModExpr`:
left-associative `*`, `/`, `%`, the node kind chosen from the
operator itself. -/
def parseMulDivModLoop : Nat → Codegen.Expr → List Tok →
    Except PErr (Codegen.Expr × List Tok)
  | 0, _, _ => .error .outOfFuel
  | fuel + 1, term, ts =>
    if curr ts = .MUL then do
      let (rhs, ts1) ← parseCallExpr fuel (next ts)
      parseMulDivModLoop fuel (.binary .mul term rhs) ts1
    else if curr ts = .DIV then do
      let (rhs, ts1) ← parseCallExpr fuel (next ts)
      parseMulDivModLoop fuel (.binary .div term rhs) ts1
    else if curr ts = .MOD then do
      let (rhs, ts1) ← parseCallExpr fuel (next ts)
      parseMulDivModLoop fuel (.binary .mod term rhs) ts1
    else .ok (term, ts)
termination_by structural fuel _ _ => fuel

/-- `Parser::ParseCallExpr`: parse a term, then fold call suffixes. -/
def parseCallExpr : Nat → List Tok → Except PErr (Codegen.Expr × List Tok)
  | 0, _ => .error .outOfFuel
  | fuel + 1, ts => do
    let (callee, ts1) ← parseTermExpr ts
    parseCallLoop fuel callee ts1
termination_by structural fuel _ => fuel

/-- The outer `while` loop of `Parser::ParseCallExpr`: while the
current token is `(`, collect the argument vector, check the closing
`)`, consume it, and wrap the callee in a `CallExpr`. -/
def parseCallLoop : Nat → Codegen.Expr → List Tok →
    Except PErr (Codegen.Expr × List Tok)
  | 0, _, _ => .error .outOfFuel
  | fuel + 1, callee, ts =>
    if curr ts = .LPAREN then do
      let (args, ts1) ← parseCallArgs fuel ts
      if curr ts1 = .RPAREN then
        parseCallLoop fuel (.call callee (toExprList args)) (next ts1)
      else .error .unexpected
    else .ok (callee, ts)
termination_by structural fuel _ _ => fuel

/-- The inner argument loop of `Parser::ParseCallExpr`: each
iteration advances first (`lexer_.Next()` in the condition, past the
`(` or the `,`), stops on `)`, otherwise parses an expression and
continues only on `,` (a break leaves the current token for the
caller's `Check(RPAREN)`). -/
def parseCallArgs : Nat → List Tok → Except PErr (List Codegen.Expr × List Tok)
  | 0, _ => .error .outOfFuel
  | fuel + 1, ts =>
    let ts1 := next ts
    if curr ts1 = .RPAREN then .ok ([], ts1)
    else do
      let (e, ts2) ← parseExpr fuel ts1
      if curr ts2 = .COMMA then do
        let (es, ts3) ← parseCallArgs fuel ts2
        .ok (e :: es, ts3)
      else .ok ([e], ts2)
termination_by structural fuel _ => fuel

end

end Parser

/-- Codegen state reached just before an `EmitLabel` for label 1 whose
stream has grown past 4 GiB: offset 0 holds the 8-byte placeholder
written by an earlier `EmitFixup`, recorded in the fixup table, and
filler brings the stream length to `2^32 + 5`. -/
def hugeState : Codegen.CGState :=
  { Codegen.initState with
    code := Codegen.leBytes 8 0 ++ List.replicate (2 ^ 32 - 3) 0,
    fixups := fun l => if l = 1 then [0] else [] }

/-- Codegen state inside a two-argument function, used to instantiate
the return-lowering theorem. -/
def retDemoState : Codegen.CGState :=
  { Codegen.initState with funcArgs := some 2 }

/-- A small module with one function declaration and one top-level
statement calling it, used to instantiate the translation theorem. -/
def demoModule : Codegen.Module :=
  [Codegen.Item.funcD "f" [] (.cons (.returnS (.intE 1)) .nil),
   Codegen.Item.stmtD (.exprS (.call (.ref "f") .nil))]

section InterpTheorems

open Interp

/-- Oddness of truncating remainder in its first argument, derived from
`tmod_def` and `neg_tdiv`. -/
theorem tmod_neg_left (a b : Int) : Int.tmod (-a) b = -Int.tmod a b := by
  simp only [Int.tmod_def, Int.neg_tdiv]
  ring

/-- Truncating remainder of 64-bit operands stays in the signed 64-bit
range whenever the divisor is nonzero. -/
theorem tmod_bounds (lhs rhs : Int) (hr1 : -(2 ^ 63) ≤ rhs) (hr2 : rhs < 2 ^ 63)
    (hr0 : rhs ≠ 0) : -(2 ^ 63) < Int.tmod lhs rhs ∧ Int.tmod lhs rhs < 2 ^ 63 := by
  have habs : ∀ a c : Int, 0 ≤ a → 0 < c → 0 ≤ Int.tmod a c ∧ Int.tmod a c < c := by
    intro a c ha hc
    exact ⟨Int.tmod_nonneg c ha, Int.tmod_lt_of_pos a hc⟩
  have hdiv : Int.tmod lhs rhs = Int.tmod lhs rhs.natAbs := by
    rcases le_or_lt 0 rhs with h | h
    · rw [Int.natAbs_of_nonneg h]
    · have he : (rhs.natAbs : Int) = -rhs := by omega
      rw [he, Int.tmod_neg]
  have hc : (0 : Int) < rhs.natAbs := by omega
  have hcle : (rhs.natAbs : Int) ≤ 2 ^ 63 := by omega
  rcases le_or_lt 0 lhs with h | h
  · have := habs lhs rhs.natAbs h hc
    omega
  · have hneg : Int.tmod lhs (rhs.natAbs : Int) = -Int.tmod (-lhs) rhs.natAbs := by
      rw [← tmod_neg_left, neg_neg]
    have := habs (-lhs) rhs.natAbs (by omega) hc
    omega

/-- Truncating quotient of 64-bit operands stays in the signed 64-bit
range, except at `(-2^63) tdiv (-1)`. -/
theorem tdiv_bounds (lhs rhs : Int) (hl1 : -(2 ^ 63) ≤ lhs) (hl2 : lhs < 2 ^ 63)
    (hexc : ¬(lhs = -(2 ^ 63) ∧ rhs = -1)) :
    -(2 ^ 63) ≤ Int.tdiv lhs rhs ∧ Int.tdiv lhs rhs < 2 ^ 63 := by
  have habs : (Int.tdiv lhs rhs).natAbs ≤ lhs.natAbs := by
    rw [Int.natAbs_tdiv]
    exact Nat.div_le_self _ _
  have hne : Int.tdiv lhs rhs ≠ 2 ^ 63 := by
    intro he
    have habs2 : (Int.tdiv lhs rhs).natAbs = 2 ^ 63 := by
      rw [he]
      decide
    have h1 : lhs.natAbs = 2 ^ 63 := by omega
    have hlv : lhs = -(2 ^ 63) := by omega
    have h2 : rhs.natAbs = 1 := by
      by_contra hne1
      have h3 : (Int.tdiv lhs rhs).natAbs = lhs.natAbs / rhs.natAbs := Int.natAbs_tdiv _ _
      rcases Nat.eq_zero_or_pos rhs.natAbs with h0 | h0
      · rw [h0, Nat.div_zero] at h3
        omega
      · have h4 : 2 ≤ rhs.natAbs := by omega
        have h5 : lhs.natAbs / rhs.natAbs ≤ lhs.natAbs / 2 :=
          Nat.div_le_div_left h4 (by omega)
        have h6 : lhs.natAbs / 2 = 2 ^ 62 := by
          rw [h1]
          decide
        omega
    have : rhs = 1 ∨ rhs = -1 := by omega
    rcases this with h | h
    · rw [hlv, h, Int.tdiv_one] at he
      omega
    · exact hexc ⟨hlv, h⟩
  omega

/-- C1 (corrected): each comparison opcode pops `rhs` (the stack top),
then `lhs`, and pushes an `Int` that is `1` exactly when the TRANSPOSED
comparison `rhs OP lhs` holds, `0` otherwise; `IS_EQ` pushes `1`
exactly when the two operands are equal.  The orientation `lhs OP rhs`
asserted by the claim is refuted by
`comparison_transposed_counterexample`. -/
theorem comparison_opcodes_transposed
    (prims : Nat → Interp.State → Except RTErr Interp.State)
    (lhs rhs : Int) (rest : List Value) (pc : Nat) :
    execInstr prims .greater ⟨.int rhs :: .int lhs :: rest, pc⟩ =
      .ok ⟨.int (if rhs > lhs then 1 else 0) :: rest, pc⟩ ∧
    execInstr prims .lower ⟨.int rhs :: .int lhs :: rest, pc⟩ =
      .ok ⟨.int (if rhs < lhs then 1 else 0) :: rest, pc⟩ ∧
    execInstr prims .greater_eq ⟨.int rhs :: .int lhs :: rest, pc⟩ =
      .ok ⟨.int (if rhs ≥ lhs then 1 else 0) :: rest, pc⟩ ∧
    execInstr prims .lower_eq ⟨.int rhs :: .int lhs :: rest, pc⟩ =
      .ok ⟨.int (if rhs ≤ lhs then 1 else 0) :: rest, pc⟩ ∧
    execInstr prims .is_eq ⟨.int rhs :: .int lhs :: rest, pc⟩ =
      .ok ⟨.int (if lhs = rhs then 1 else 0) :: rest, pc⟩ := by
  refine ⟨?_, ?_, ?_, ?_, ?_⟩ <;>
    simp [execInstr, popInt, Except.bind, bind, gt_iff_lt, ge_iff_le, eq_comm]

/-- C1 counterexample: with `lhs = 1` beneath the top `rhs = 2`,
GREATER pushes `1` although the claimed comparison `lhs > rhs` is
false, so the claim's `lhs OP rhs` orientation does not hold. -/
theorem comparison_transposed_counterexample :
    execInstr demoPrims .greater ⟨[.int 2, .int 1], 0⟩ = .ok ⟨[.int 1], 0⟩ ∧
      ¬((1 : Int) > 2) :=
  ⟨rfl, by decide⟩

/-- C3 (confirmed): with both operands in the signed 64-bit range, ADD
faults with "overflow error" exactly when the mathematical sum leaves
`[-2^63, 2^63 - 1]`, and otherwise pushes the exact sum; SUB does the
same for the mathematical difference.  Intermediate results wrap modulo
`2^64` as on the two's-complement host. -/
theorem add_sub_overflow_exact
    (prims : Nat → Interp.State → Except RTErr Interp.State)
    (lhs rhs : Int) (rest : List Value) (pc : Nat)
    (hl1 : -(2 ^ 63) ≤ lhs) (hl2 : lhs < 2 ^ 63)
    (hr1 : -(2 ^ 63) ≤ rhs) (hr2 : rhs < 2 ^ 63) :
    (execInstr prims .add ⟨.int rhs :: .int lhs :: rest, pc⟩ =
      if lhs + rhs < -(2 ^ 63) ∨ 2 ^ 63 - 1 < lhs + rhs
      then .error .overflowError
      else .ok ⟨.int (lhs + rhs) :: rest, pc⟩) ∧
    (execInstr prims .sub ⟨.int rhs :: .int lhs :: rest, pc⟩ =
      if lhs - rhs < -(2 ^ 63) ∨ 2 ^ 63 - 1 < lhs - rhs
      then .error .overflowError
      else .ok ⟨.int (lhs - rhs) :: rest, pc⟩) ∧
    RTErr.message .overflowError = "overflow error" := by
  refine ⟨?_, ?_, rfl⟩ <;>
  · simp only [execInstr, popInt, toInt64, Except.bind, bind]
    split_ifs <;>
      first
        | rfl
        | (exfalso; omega)
        | (simp only [Except.ok.injEq, State.mk.injEq, List.cons.injEq,
            Value.int.injEq, and_true, true_and]
           omega)

/-- Witness for `add_sub_overflow_exact` at `lhs = 2^63 - 1`,
`rhs = 1`: the bounds hold and the instantiated conclusion follows. -/
theorem add_sub_overflow_exact_witness :
    (-(2 ^ 63) ≤ (2 ^ 63 - 1 : Int)) ∧
    ((execInstr demoPrims .add ⟨[.int 1, .int (2 ^ 63 - 1)], 0⟩ =
      if (2 ^ 63 - 1 : Int) + 1 < -(2 ^ 63) ∨ 2 ^ 63 - 1 < (2 ^ 63 - 1 : Int) + 1
      then .error .overflowError
      else .ok ⟨[.int ((2 ^ 63 - 1 : Int) + 1)], 0⟩) ∧
    (execInstr demoPrims .sub ⟨[.int 1, .int (2 ^ 63 - 1)], 0⟩ =
      if (2 ^ 63 - 1 : Int) - 1 < -(2 ^ 63) ∨ 2 ^ 63 - 1 < (2 ^ 63 - 1 : Int) - 1
      then .error .overflowError
      else .ok ⟨[.int ((2 ^ 63 - 1 : Int) - 1)], 0⟩) ∧
    RTErr.message .overflowError = "overflow error") :=
  ⟨by decide,
   add_sub_overflow_exact demoPrims (2 ^ 63 - 1) 1 [] 0
     (by decide) (by decide) (by decide) (by decide)⟩

/-- C5 counterexample: at `lhs = -2^63`, `rhs = -1` the claimed result,
the truncated quotient `2^63`, is not representable in 64 bits; the
64-bit result slot holds `-2^63` instead (the C++ source's behaviour at
this input is undefined, and no 64-bit value can equal `2^63`), so DIV
does not push an `Int` equal to the truncated quotient. -/
theorem div_unrepresentable_counterexample :
    execInstr demoPrims .div ⟨[.int (-1), .int (-(2 ^ 63))], 0⟩ =
      .ok ⟨[.int (-(2 ^ 63))], 0⟩ ∧
    Int.tdiv (-(2 ^ 63)) (-1) = 2 ^ 63 ∧
    (-(2 ^ 63) : Int) ≠ 2 ^ 63 := by
  refine ⟨?_, by decide, by decide⟩
  simp only [execInstr, popInt, Except.bind, bind]
  norm_num [toInt64]

/-- C5 (corrected): with 64-bit operands, DIV and MOD fault with
"division by 0" exactly when `rhs = 0`; for nonzero `rhs`, MOD pushes
`lhs tmod rhs` (the C remainder), and DIV pushes the truncated quotient
`lhs tdiv rhs` — except at `(lhs, rhs) = (-2^63, -1)`, excluded here,
where the quotient is unrepresentable
(`div_unrepresentable_counterexample`). -/
theorem div_mod_semantics
    (prims : Nat → Interp.State → Except RTErr Interp.State)
    (lhs rhs : Int) (rest : List Value) (pc : Nat)
    (hl1 : -(2 ^ 63) ≤ lhs) (hl2 : lhs < 2 ^ 63)
    (hr1 : -(2 ^ 63) ≤ rhs) (hr2 : rhs < 2 ^ 63)
    (hexc : ¬(lhs = -(2 ^ 63) ∧ rhs = -1)) :
    (rhs = 0 →
      execInstr prims .div ⟨.int rhs :: .int lhs :: rest, pc⟩ =
        .error .divisionByZero ∧
      execInstr prims .mod ⟨.int rhs :: .int lhs :: rest, pc⟩ =
        .error .divisionByZero) ∧
    (rhs ≠ 0 →
      execInstr prims .div ⟨.int rhs :: .int lhs :: rest, pc⟩ =
        .ok ⟨.int (Int.tdiv lhs rhs) :: rest, pc⟩ ∧
      execInstr prims .mod ⟨.int rhs :: .int lhs :: rest, pc⟩ =
        .ok ⟨.int (Int.tmod lhs rhs) :: rest, pc⟩) ∧
    RTErr.message .divisionByZero = "division by 0" := by
  refine ⟨?_, ?_, rfl⟩
  · intro h0
    subst h0
    constructor <;> rfl
  · intro h0
    have hd := tdiv_bounds lhs rhs hl1 hl2 hexc
    have hm := tmod_bounds lhs rhs hr1 hr2 h0
    constructor <;>
    · simp only [execInstr, popInt, Except.bind, bind, if_neg h0]
      simp only [Except.ok.injEq, State.mk.injEq, List.cons.injEq,
        Value.int.injEq, and_true, true_and, toInt64]
      omega

/-- Witness for `div_mod_semantics` at `lhs = 7`, `rhs = -2`: the
hypotheses hold and the instantiated conclusion follows. -/
theorem div_mod_semantics_witness :
    (¬((7 : Int) = -(2 ^ 63) ∧ (-2 : Int) = -1)) ∧
    (((-2 : Int) = 0 →
      execInstr demoPrims .div ⟨[.int (-2), .int 7], 0⟩ =
        .error .divisionByZero ∧
      execInstr demoPrims .mod ⟨[.int (-2), .int 7], 0⟩ =
        .error .divisionByZero) ∧
    ((-2 : Int) ≠ 0 →
      execInstr demoPrims .div ⟨[.int (-2), .int 7], 0⟩ =
        .ok ⟨[.int (Int.tdiv 7 (-2))], 0⟩ ∧
      execInstr demoPrims .mod ⟨[.int (-2), .int 7], 0⟩ =
        .ok ⟨[.int (Int.tmod 7 (-2))], 0⟩) ∧
    RTErr.message .divisionByZero = "division by 0") :=
  ⟨by decide,
   div_mod_semantics demoPrims 7 (-2) [] 0
     (by decide) (by decide) (by decide) (by decide) (by decide)⟩

end InterpTheorems

section CodegenTheorems

open Interp Codegen

/-- Patching a byte range preserves the stream length. -/
theorem patchBytes_length (bs : List Nat) (code : List Nat) (loc : Nat) :
    (patchBytes code loc bs).length = code.length := by
  induction bs generalizing code loc with
  | nil => rfl
  | cons b bs ih => simp [patchBytes, ih]

/-- Little-endian encoding produces exactly `w` bytes. -/
theorem leBytes_length (w : Nat) : ∀ n, (leBytes w n).length = w := by
  induction w with
  | zero => intro n; rfl
  | succ w ih => intro n; simp [leBytes, ih]

/-- C10 (confirmed): `GlobalScope::Lookup` consults the function map
before the prototype map, so a name present in the function map always
resolves to its FUNC binding, and no PROTO binding is reachable for
it, whatever the prototype map holds. -/
theorem global_lookup_prefers_func (funcs protos : List (String × Nat))
    (name : String) (entry : Nat)
    (h : lookupA funcs name = some entry) :
    Scope.lookup (.global funcs protos) name = .ok (.FUNC entry) ∧
    ∀ fn, Scope.lookup (.global funcs protos) name ≠ .ok (.PROTO fn) := by
  refine ⟨?_, ?_⟩
  · simp [Scope.lookup, h]
  · intro fn
    simp [Scope.lookup, h]

/-- Witness for `global_lookup_prefers_func` on a name bound both as a
function (label 3) and as a prototype (handle 7). -/
theorem global_lookup_prefers_func_witness :
    lookupA [("f", 3)] "f" = some 3 ∧
    (Scope.lookup (.global [("f", 3)] [("f", 7)]) "f" = .ok (.FUNC 3) ∧
     ∀ fn, Scope.lookup (.global [("f", 3)] [("f", 7)]) "f" ≠ .ok (.PROTO fn)) :=
  ⟨by decide, global_lookup_prefers_func [("f", 3)] [("f", 7)] "f" 3 (by decide)⟩

/-- Association lookup skips a missing key into the appended tail. -/
theorem lookupL_append_none {β : Type} (m l2 : List (Nat × β)) (k : Nat)
    (h : lookupL m k = none) : lookupL (m ++ l2) k = lookupL l2 k := by
  induction m with
  | nil => rfl
  | cons p rest ih =>
    by_cases hp : p.1 = k
    · simp [lookupL, hp] at h
    · simp only [lookupL, hp, if_neg hp, List.cons_append] at h ⊢
      exact ih h

/-- Inserting under a fresh key makes it resolvable. -/
theorem lookupL_insert_none {β : Type} (m : List (Nat × β)) (k : Nat) (v : β)
    (h : lookupL m k = none) : lookupL (insertL m k v) k = some v := by
  simp only [insertL, h]
  rw [lookupL_append_none m [(k, v)] k h]
  simp [lookupL]

/-- C2 (code_bug): `EmitLabel` patches each pending fixup site with a
`memcpy` of `sizeof(unsigned)` = 4 bytes, while the sites are 8-byte
`size_t` slots written by `EmitFixup`.  For a pending site at offset 0
holding the 8-byte zero placeholder, binding the label records the
full stream offset in `labelToAddress`, but the patched site reads
back only `offset % 2^32`: offsets outside the 32-bit range are
truncated (instantiated at stream offset `2^32 + 5` by
`emitLabel_truncates_large_offsets_witness`). -/
theorem emitLabel_truncates_large_offsets (L : Nat) (tail : List Nat)
    (s : CGState)
    (hcode : s.code = 0 :: 0 :: 0 :: 0 :: 0 :: 0 :: 0 :: 0 :: tail)
    (hfix : s.fixups L = [0])
    (hbound : lookupL s.labelToAddress L = none) :
    readLE 8 (emitLabel L s).code 0 = s.code.length % 2 ^ 32 ∧
    lookupL (emitLabel L s).labelToAddress L = some s.code.length := by
  constructor
  · have hle : ∀ a : Nat, leBytes 4 a =
        [a % 256, a / 256 % 256, a / 256 / 256 % 256, a / 256 / 256 / 256 % 256] :=
      fun a => rfl
    have hpb : ∀ (b0 b1 b2 b3 : Nat) (t : List Nat),
        patchBytes (0 :: 0 :: 0 :: 0 :: 0 :: 0 :: 0 :: 0 :: t) 0 [b0, b1, b2, b3] =
          b0 :: b1 :: b2 :: b3 :: 0 :: 0 :: 0 :: 0 :: t :=
      fun b0 b1 b2 b3 t => rfl
    have hrd : ∀ (b0 b1 b2 b3 : Nat) (t : List Nat),
        readLE 8 (b0 :: b1 :: b2 :: b3 :: 0 :: 0 :: 0 :: 0 :: t) 0 =
          b0 + 256 * (b1 + 256 * (b2 + 256 * (b3 + 256 * (0 + 256 * (0 + 256 * (0 + 256 * (0 + 256 * 0))))))) :=
      fun b0 b1 b2 b3 t => rfl
    simp only [emitLabel, hfix, List.foldl, hcode, hle, hpb, hrd]
    omega
  · simp only [emitLabel]
    exact lookupL_insert_none s.labelToAddress L s.code.length hbound

/-- Witness for `emitLabel_truncates_large_offsets` at `hugeState`: the
stream is `2^32 + 5` bytes long, the table records that full offset,
yet the patched site reads back `5`. -/
theorem emitLabel_truncates_large_offsets_witness :
    hugeState.code.length = 2 ^ 32 + 5 ∧
    (2 ^ 32 + 5) % 2 ^ 32 = 5 ∧ (5 : Nat) ≠ 2 ^ 32 + 5 ∧
    (readLE 8 (emitLabel 1 hugeState).code 0 = hugeState.code.length % 2 ^ 32 ∧
     lookupL (emitLabel 1 hugeState).labelToAddress 1 = some hugeState.code.length) := by
  refine ⟨?_, by norm_num, by norm_num, ?_⟩
  · simp only [hugeState, List.length_append, List.length_replicate, leBytes_length]
    norm_num
  · exact emitLabel_truncates_large_offsets 1 (List.replicate (2 ^ 32 - 3) 0)
      hugeState rfl rfl rfl

/-- C4 (confirmed): the RET opcode pops the return value `v`, drops
`depth` elements, pops an `Addr` into `pc`, drops `nargs` further
elements and pushes `v` back; and lowering a `Return` statement
appends a RET whose first 32-bit immediate is the static depth after
the returned expression minus one and whose second is the enclosing
function's argument count (0 at top level, where `funcArgs` is
`none`). -/
theorem ret_semantics_and_lowering :
    (∀ (prims : Nat → Interp.State → Except RTErr Interp.State)
       (v : Value) (locals args rest : List Value) (ra pc : Nat),
      execInstr prims (.ret locals.length args.length)
        ⟨v :: (locals ++ .addr ra :: (args ++ rest)), pc⟩ = .ok ⟨v :: rest, ra⟩) ∧
    (∀ (scope : Scope) (e : Expr) (s s1 s2 : CGState) (scope2 : Scope),
      lowerExpr scope e s = .ok s1 →
      lowerStmt scope (.returnS e) s = .ok (s2, scope2) →
      s2.code = s1.code ++ Opcode.toByte .RET ::
        (leBytes 4 (s1.depth - 1) ++ leBytes 4 (s1.funcArgs.getD 0)) ∧
      s2.depth = s1.depth - 1 ∧ scope2 = scope) := by
  constructor
  · intro prims v locals args rest ra pc
    simp only [execInstr, popV, Except.bind, bind]
    rw [if_pos (by simp)]
    rw [List.drop_left]
    simp only [popAddr]
    rw [if_pos (by simp)]
    rw [List.drop_left]
  · intro scope e s s1 s2 scope2 he hs
    simp only [lowerStmt, he, Except.bind, bind, emitReturn] at hs
    by_cases hd : s1.depth = 0
    · simp [hd] at hs
    · simp only [hd, if_false, Except.ok.injEq, Prod.mk.injEq] at hs
      obtain ⟨h1, h2⟩ := hs
      subst h1
      refine ⟨?_, ?_, h2.symm⟩ <;>
        simp [emitBytes, emitOp, List.append_assoc]

/-- Witness for `ret_semantics_and_lowering`: lowering `return 7`
inside a two-argument function at depth 0 emits RET with immediates 0
and 2. -/
theorem ret_semantics_and_lowering_witness :
    lowerExpr (.global [] []) (.intE 7) retDemoState =
      .ok (emitInt 7 retDemoState) ∧
    ∃ s2 scope2,
      lowerStmt (.global [] []) (.returnS (.intE 7)) retDemoState =
        .ok (s2, scope2) ∧
      s2.code = (emitInt 7 retDemoState).code ++ Opcode.toByte .RET ::
        (leBytes 4 ((emitInt 7 retDemoState).depth - 1) ++
          leBytes 4 ((emitInt 7 retDemoState).funcArgs.getD 0)) ∧
      s2.depth = (emitInt 7 retDemoState).depth - 1 ∧
      scope2 = Scope.global [] [] :=
  ⟨rfl, _, _, rfl,
   ret_semantics_and_lowering.2 (.global [] []) (.intE 7) retDemoState
     (emitInt 7 retDemoState) _ _ rfl rfl⟩

/-- C7 (confirmed): a `Ref` that resolves to `ARG i` lowers to
`PEEK (depth + i + 1)` and one that resolves to `LOCAL d` (depth
snapshot `d`) lowers to `PEEK (depth - d)` — computed in 32-bit
unsigned arithmetic, which agrees with the plain values under the
stated bounds; and under the frame layout
`[…, arg_{n-1}, …, arg_0, saved-pc, local_0, …, top]` (here: `locals`
on top of the saved `Addr` on top of `args`, with `locals.length =
depth`), `PEEK (depth + i + 1)` copies exactly `arg_i` and
`PEEK (depth - d)` copies exactly the local pushed when the depth
reached `d`, i.e. the `(d-1)`-th value above the saved pc. -/
theorem ref_peek_indices :
    (∀ (scope : Scope) (name : String) (s : CGState) (i : Nat),
      scope.lookup name = .ok (.ARG i) →
      lowerRefExpr scope name s = .ok (emitPeek (u32 (s.depth + i + 1)) s)) ∧
    (∀ (scope : Scope) (name : String) (s : CGState) (d : Nat),
      scope.lookup name = .ok (.LOCAL d) →
      lowerRefExpr scope name s = .ok (emitPeek (u32sub s.depth d) s)) ∧
    (∀ depth i : Nat, depth + i + 1 < 2 ^ 32 → u32 (depth + i + 1) = depth + i + 1) ∧
    (∀ depth d : Nat, d ≤ depth → depth < 2 ^ 32 → u32sub depth d = depth - d) ∧
    (∀ (prims : Nat → Interp.State → Except RTErr Interp.State)
       (locals args rest : List Value) (ra pc i : Nat) (v : Value),
      args[i]? = some v →
      execInstr prims (.peek (locals.length + i + 1))
          ⟨locals ++ .addr ra :: (args ++ rest), pc⟩ =
        .ok ⟨v :: (locals ++ .addr ra :: (args ++ rest)), pc⟩) ∧
    (∀ (prims : Nat → Interp.State → Except RTErr Interp.State)
       (locals args rest : List Value) (ra pc d : Nat) (v : Value),
      1 ≤ d → d ≤ locals.length →
      locals[locals.length - d]? = some v →
      locals.reverse[d - 1]? = some v ∧
      execInstr prims (.peek (locals.length - d))
          ⟨locals ++ .addr ra :: (args ++ rest), pc⟩ =
        .ok ⟨v :: (locals ++ .addr ra :: (args ++ rest)), pc⟩) := by
  refine ⟨?_, ?_, ?_, ?_, ?_, ?_⟩
  · intro scope name s i h
    simp [lowerRefExpr, h, Except.bind, bind]
  · intro scope name s d h
    simp [lowerRefExpr, h, Except.bind, bind]
  · intro depth i h
    simp only [u32]
    omega
  · intro depth d h1 h2
    simp only [u32sub, u32]
    omega
  · intro prims locals args rest ra pc i v h
    have hi : i < args.length := by
      rcases List.getElem?_eq_some.mp h with ⟨hlt, _⟩
      exact hlt
    simp only [execInstr]
    rw [List.getElem?_append_right (by omega)]
    have hidx : locals.length + i + 1 - locals.length = i + 1 := by omega
    rw [hidx]
    simp only [List.getElem?_cons_succ]
    rw [List.getElem?_append_left hi, h]
  · intro prims locals args rest ra pc d v h1 h2 h
    have hlt : locals.length - d < locals.length := by omega
    constructor
    · rw [List.getElem?_reverse (by omega)]
      have : locals.length - 1 - (d - 1) = locals.length - d := by omega
      rw [this, h]
    · simp only [execInstr]
      rw [List.getElem?_append_left hlt, h]

/-- Witness for `ref_peek_indices` in a scope with arguments
`a ↦ 0, b ↦ 1` and a local `x` with depth snapshot 1, at static depth
2 and on a runtime frame with one local above the saved pc above two
arguments. -/
theorem ref_peek_indices_witness :
    (Scope.lookup (.block (.func (.global [] []) [("a", 0), ("b", 1)]) [("x", 1)])
        "b" = .ok (.ARG 1)) ∧
    (Scope.lookup (.block (.func (.global [] []) [("a", 0), ("b", 1)]) [("x", 1)])
        "x" = .ok (.LOCAL 1)) ∧
    lowerRefExpr (.block (.func (.global [] []) [("a", 0), ("b", 1)]) [("x", 1)])
        "b" retDemoState =
      .ok (emitPeek (u32 (retDemoState.depth + 1 + 1)) retDemoState) ∧
    lowerRefExpr (.block (.func (.global [] []) [("a", 0), ("b", 1)]) [("x", 1)])
        "x" retDemoState =
      .ok (emitPeek (u32sub retDemoState.depth 1) retDemoState) ∧
    u32 (2 + 1 + 1) = 2 + 1 + 1 ∧
    u32sub 2 1 = 2 - 1 ∧
    execInstr demoPrims (.peek (([Value.int 10] : List Value).length + 1 + 1))
        ⟨[Value.int 10] ++ .addr 9 :: ([Value.int 7, Value.int 8] ++ []), 0⟩ =
      .ok ⟨.int 8 :: ([Value.int 10] ++ .addr 9 :: ([Value.int 7, Value.int 8] ++ [])), 0⟩ ∧
    ([Value.int 10] : List Value).reverse[(1 : Nat) - 1]? = some (.int 10) ∧
    execInstr demoPrims (.peek (([Value.int 10] : List Value).length - 1))
        ⟨[Value.int 10] ++ .addr 9 :: ([Value.int 7, Value.int 8] ++ []), 0⟩ =
      .ok ⟨.int 10 :: ([Value.int 10] ++ .addr 9 :: ([Value.int 7, Value.int 8] ++ [])), 0⟩ := by
  obtain ⟨h1, h2, h3, h4, h5, h6⟩ := ref_peek_indices
  have ha := h1 (.block (.func (.global [] []) [("a", 0), ("b", 1)]) [("x", 1)])
    "b" retDemoState 1 rfl
  have hl := h2 (.block (.func (.global [] []) [("a", 0), ("b", 1)]) [("x", 1)])
    "x" retDemoState 1 rfl
  have hp := h5 demoPrims [Value.int 10] [Value.int 7, Value.int 8] [] 9 0 1
    (.int 8) rfl
  have hq := h6 demoPrims [Value.int 10] [Value.int 7, Value.int 8] [] 9 0 1
    (.int 10) (by decide) (by decide) rfl
  exact ⟨rfl, rfl, ha, hl, h3 2 1 (by decide), h4 2 1 (by decide) (by decide),
    hp, hq.1, hq.2⟩

end CodegenTheorems

section ParserTheorems

open Parser

/-- C9 (confirmed): for an input `a OP b` whose following token
neither extends the operand `b` (no `(`, `*`, `/`, `%`, `+`, `-`) nor
is itself a comparison, `ParseCompExpr` picks the node kind from that
FOLLOWING token — not from the consumed operator `OP` — and the
defaulting `else` branch therefore builds an `IS_EQ` node whichever of
the five comparison operators was written. -/
theorem parseCompExpr_kind_from_following_token (a b : String) (op : Tok)
    (rest : List Tok)
    (hop : op = .GREATER ∨ op = .LOWER ∨ op = .GREATER_EQ ∨ op = .LOWER_EQ ∨
      op = .IS_EQ)
    (h1 : curr rest ≠ .LPAREN) (h2 : curr rest ≠ .MUL)
    (h3 : curr rest ≠ .DIV) (h4 : curr rest ≠ .MOD)
    (h5 : curr rest ≠ .PLUS) (h6 : curr rest ≠ .MINUS)
    (h7 : curr rest ≠ .GREATER) (h8 : curr rest ≠ .LOWER)
    (h9 : curr rest ≠ .GREATER_EQ) (h10 : curr rest ≠ .LOWER_EQ)
    (h11 : curr rest ≠ .IS_EQ) :
    parseCompExpr 10 (.IDENT a :: op :: .IDENT b :: rest) =
      .ok (.binary .is_eq (.ref a) (.ref b), rest) := by
  have hterm : ∀ (s : String) (l : List Tok), parseTermExpr (.IDENT s :: l) =
      .ok (.ref s, l) := fun s l => rfl
  have hchain : ∀ (f : Nat) (s : String) (l : List Tok),
      curr l ≠ .LPAREN → curr l ≠ .MUL → curr l ≠ .DIV → curr l ≠ .MOD →
      curr l ≠ .PLUS → curr l ≠ .MINUS →
      parseAddSubExpr (f + 4) (.IDENT s :: l) = .ok (.ref s, l) := by
    intro f s l g1 g2 g3 g4 g5 g6
    simp only [parseAddSubExpr, parseMulDivModExpr, parseCallExpr, hterm,
      parseCallLoop, parseMulDivModLoop, parseAddSubLoop, Except.bind, bind,
      if_neg g1, if_neg g2, if_neg g3, if_neg g4, if_neg g5, if_neg g6]
  have hbody : ∀ op2 : Tok, op2 = .GREATER ∨ op2 = .LOWER ∨ op2 = .GREATER_EQ ∨
      op2 = .LOWER_EQ ∨ op2 = .IS_EQ →
      parseCompExpr 10 (.IDENT a :: op2 :: .IDENT b :: rest) =
        parseCompLoop 9 (.ref a) (op2 :: .IDENT b :: rest) := by
    intro op2 hop2
    have hcur : ∀ l, curr (op2 :: l) ≠ .LPAREN ∧ curr (op2 :: l) ≠ .MUL ∧
        curr (op2 :: l) ≠ .DIV ∧ curr (op2 :: l) ≠ .MOD ∧
        curr (op2 :: l) ≠ .PLUS ∧ curr (op2 :: l) ≠ .MINUS := by
      intro l
      rcases hop2 with h | h | h | h | h <;> subst h <;>
        refine ⟨?_, ?_, ?_, ?_, ?_, ?_⟩ <;> simp [curr]
    have h5 := hchain 5 a (op2 :: .IDENT b :: rest) (hcur _).1 (hcur _).2.1
      (hcur _).2.2.1 (hcur _).2.2.2.1 (hcur _).2.2.2.2.1 (hcur _).2.2.2.2.2
    simp only [parseCompExpr, h5, Except.bind, bind]
  have hstep := hchain 4 b rest h1 h2 h3 h4 h5 h6
  simp only [curr] at h7 h8 h9 h10 h11
  rcases hop with h | h | h | h | h <;> subst h <;>
    rw [hbody _ (by simp)] <;>
    simp [parseCompLoop, curr, next, Except.bind, bind, hstep,
      h7, h8, h9, h10, h11]

/-- Witness for `parseCompExpr_kind_from_following_token`: the input
`x > y` (followed by end of input) parses to `x == y`. -/
theorem parseCompExpr_kind_witness :
    parseCompExpr 10 [.IDENT "x", .GREATER, .IDENT "y"] =
      .ok (.binary .is_eq (.ref "x") (.ref "y"), []) :=
  parseCompExpr_kind_from_following_token "x" "y" .GREATER []
    (.inl rfl) (by decide) (by decide) (by decide) (by decide) (by decide)
    (by decide) (by decide) (by decide) (by decide) (by decide) (by decide)

end ParserTheorems

section InvariantLemmas

open Codegen

/-- Patching preserves any byte outside the patched window. -/
theorem patchBytes_getD (bs : List Nat) (code : List Nat) (loc i : Nat)
    (h : i < loc ∨ loc + bs.length ≤ i) :
    (patchBytes code loc bs).getD i 0 = code.getD i 0 := by
  induction bs generalizing code loc with
  | nil => rfl
  | cons b bs ih =>
    simp only [patchBytes]
    rw [ih (code.set loc b) (loc + 1) (by simp at h ⊢; omega)]
    simp only [List.getD_eq_getElem?_getD]
    rw [List.getElem?_set_ne (by simp at h; omega)]

/-- The patch fold of `EmitLabel` preserves the stream length. -/
theorem foldl_patch_length (locs : List Nat) (code : List Nat) (a : Nat) :
    (locs.foldl (fun c loc => patchBytes c loc (leBytes 4 a)) code).length =
      code.length := by
  induction locs generalizing code with
  | nil => rfl
  | cons loc locs ih =>
    simp only [List.foldl]
    rw [ih, patchBytes_length]

/-- The patch fold of `EmitLabel` preserves any byte outside every
patch window. -/
theorem foldl_patch_getD (locs : List Nat) (code : List Nat) (a i : Nat)
    (h : ∀ loc ∈ locs, loc + 4 ≤ i ∨ i < loc) :
    (locs.foldl (fun c loc => patchBytes c loc (leBytes 4 a)) code).getD i 0 =
      code.getD i 0 := by
  induction locs generalizing code with
  | nil => rfl
  | cons loc locs ih =>
    simp only [List.foldl]
    rw [ih _ (fun l hl => h l (by simp [hl]))]
    exact patchBytes_getD _ _ _ _ (by
      have := h loc (by simp)
      rw [leBytes_length]
      omega)

/-- First-match lookup is unaffected by appending when the key is
already present. -/
theorem lookupL_append_some {β : Type} (m l2 : List (Nat × β)) (k : Nat) (a : β)
    (h : lookupL m k = some a) : lookupL (m ++ l2) k = some a := by
  induction m with
  | nil => simp [lookupL] at h
  | cons p rest ih =>
    simp only [lookupL, List.cons_append] at h ⊢
    by_cases hp : p.1 = k
    · simpa [hp] using h
    · rw [if_neg hp] at h ⊢
      exact ih h

/-- `emplace` semantics preserve existing resolutions. -/
theorem lookupL_insertL_mono {β : Type} (m : List (Nat × β)) (k k2 : Nat)
    (v : β) (a : β) (h : lookupL m k2 = some a) :
    lookupL (insertL m k v) k2 = some a := by
  unfold insertL
  cases hk : lookupL m k with
  | some _ => exact h
  | none => exact lookupL_append_some m _ k2 a h

/-- After `emplace`, the key resolves (to the old or the new value). -/
theorem lookupL_insertL_self {β : Type} (m : List (Nat × β)) (k : Nat) (v : β) :
    (lookupL (insertL m k v) k).isSome := by
  unfold insertL
  cases hk : lookupL m k with
  | some a => simp [hk]
  | none =>
    rw [lookupL_append_none m _ k hk]
    simp [lookupL]

/-- `Grows` is reflexive. -/
theorem grows_refl (s : CGState) : Grows s s :=
  ⟨rfl, le_refl _, le_refl _, fun _ _ h => h, id, fun _ _ hp => ⟨rfl, hp⟩⟩

/-- `Grows` composes. -/
theorem grows_trans {s1 s2 s3 : CGState} (g1 : Grows s1 s2) (g2 : Grows s2 s3) :
    Grows s1 s3 := by
  refine ⟨g2.funcs_eq.trans g1.funcs_eq, le_trans g1.len_le g2.len_le,
    le_trans g1.next_le g2.next_le,
    fun L a h => g2.bound_mono L a (g1.bound_mono L a h),
    fun h => g2.fix_ok (g1.fix_ok h), ?_⟩
  intro i hi hp
  obtain ⟨hb1, hp1⟩ := g1.byte_keep i hi hp
  obtain ⟨hb2, hp2⟩ := g2.byte_keep i (lt_of_lt_of_le hi g1.len_le) hp1
  exact ⟨hb2.trans hb1, hp2⟩

/-- `UPgrow` with no new labels, from unchanged fixups and address
map. -/
theorem upgrow_of_eq {s s1 : CGState} {X : Nat → Prop}
    (hf : s1.fixups = s.fixups) (hl : s1.labelToAddress = s.labelToAddress) :
    UPgrow s s1 X := by
  intro L h
  left
  unfold UP isBound at h ⊢
  rwa [hf, hl] at h

/-- `UPgrow` composes, accumulating the possible new labels. -/
theorem upgrow_trans {s1 s2 s3 : CGState} {X Y : Nat → Prop}
    (h1 : UPgrow s1 s2 X) (h2 : UPgrow s2 s3 Y) :
    UPgrow s1 s3 (fun L => X L ∨ Y L) := by
  intro L h
  rcases h2 L h with h | h
  · rcases h1 L h with h | h
    · exact .inl h
    · exact .inr (.inl h)
  · exact .inr (.inr h)

/-- `UPgrow` is monotone in the allowance. -/
theorem upgrow_mono {s s1 : CGState} {X Y : Nat → Prop}
    (h : UPgrow s s1 X) (himp : ∀ L, X L → Y L) : UPgrow s s1 Y := by
  intro L hL
  rcases h L hL with h | h
  · exact .inl h
  · exact .inr (himp L h)

/-- A label bound before the step, or bound by it, is not pending
afterwards when `Grows` holds. -/
theorem not_up_of_bound {s s1 : CGState} (g : Grows s s1) (L : Nat)
    (h : isBound s L) : ¬UP s1 L := by
  intro hup
  unfold isBound at h
  cases ha : lookupL s.labelToAddress L with
  | none => rw [ha] at h; simp at h
  | some a =>
    have := g.bound_mono L a ha
    exact hup.2 (by simp [isBound, this])

/-- `emitBytes` only appends: all invariants advance. -/
theorem emitBytes_grows (bs : List Nat) (s : CGState) :
    Grows s (emitBytes bs s) := by
  refine ⟨rfl, ?_, le_refl _, fun _ _ h => h, ?_, ?_⟩
  · simp [emitBytes]
  · intro hf L loc hmem
    have := hf L loc hmem
    simp only [emitBytes, List.length_append]
    omega
  · intro i hi hp
    refine ⟨?_, hp⟩
    simp only [emitBytes]
    exact List.getD_append _ _ _ _ hi

/-- `emitOp` only appends. -/
theorem emitOp_grows (op : Opcode) (s : CGState) : Grows s (emitOp op s) :=
  emitBytes_grows _ s

/-- `emitLabel` patches in place, binds its label and pends nothing
new. -/
theorem emitLabel_facts (L0 : Nat) (s : CGState) :
    Grows s (emitLabel L0 s) ∧ isBound (emitLabel L0 s) L0 ∧
    UPgrow s (emitLabel L0 s) (fun _ => False) ∧
    (emitLabel L0 s).fixups = s.fixups ∧
    (emitLabel L0 s).depth = s.depth := by
  refine ⟨⟨rfl, ?_, le_refl _, ?_, ?_, ?_⟩, ?_, ?_, rfl, rfl⟩
  · simp only [emitLabel, foldl_patch_length, le_refl]
  · intro L a h
    exact lookupL_insertL_mono _ _ _ _ _ h
  · intro hf L loc hmem
    have := hf L loc hmem
    simp only [emitLabel, foldl_patch_length]
    omega
  · intro i hi hp
    refine ⟨?_, hp⟩
    simp only [emitLabel]
    exact foldl_patch_getD _ _ _ i (fun loc hloc => hp L0 loc hloc)
  · simp only [isBound, emitLabel]
    exact lookupL_insertL_self _ _ _
  · intro L h
    by_cases hL : L = L0
    · subst hL
      exact absurd (show isBound (emitLabel L s) L from lookupL_insertL_self _ _ _) h.2
    · left
      refine ⟨h.1, fun hb => h.2 ?_⟩
      unfold isBound at hb ⊢
      cases ha : lookupL s.labelToAddress L with
      | none => rw [ha] at hb; simp at hb
      | some a => simp [emitLabel, lookupL_insertL_mono _ _ _ _ _ ha]

/-- `emitFixup` appends 8 bytes and may pend (only) its own label. -/
theorem emitFixup_facts (L0 : Nat) (s : CGState) :
    Grows s (emitFixup L0 s) ∧
    UPgrow s (emitFixup L0 s) (fun L => L = L0) ∧
    (emitFixup L0 s).labelToAddress = s.labelToAddress ∧
    (emitFixup L0 s).depth = s.depth := by
  unfold emitFixup
  cases hb : lookupL s.labelToAddress L0 with
  | some a =>
    exact ⟨emitBytes_grows _ s, upgrow_of_eq rfl rfl, rfl, rfl⟩
  | none =>
    refine ⟨⟨rfl, ?_, le_refl _, fun _ _ h => h, ?_, ?_⟩, ?_, rfl, rfl⟩
    · simp [emitBytes]
    · intro hf L loc hmem
      simp only [emitBytes, List.length_append, leBytes_length]
      by_cases hL : L = L0
      · subst hL
        simp only [emitBytes, eq_self_iff_true, if_true, List.append_eq,
          List.mem_append, List.mem_singleton] at hmem
        rcases hmem with h | h
        · have := hf L loc h
          omega
        · omega
      · simp only [emitBytes, if_neg hL] at hmem
        have := hf L loc hmem
        omega
    · intro i hi hp
      constructor
      · simp only [emitBytes]
        exact List.getD_append _ _ _ _ hi
      · intro L loc hmem
        by_cases hL : L = L0
        · subst hL
          simp only [emitBytes, eq_self_iff_true, if_true, List.append_eq,
            List.mem_append, List.mem_singleton] at hmem
          rcases hmem with h | h
          · exact hp L loc h
          · omega
        · simp only [emitBytes, if_neg hL] at hmem
          exact hp L loc hmem
    · intro L h
      by_cases hL : L = L0
      · exact .inr hL
      · left
        refine ⟨?_, h.2⟩
        have h1 := h.1
        simp only [emitBytes, if_neg hL] at h1
        exact h1

/-- Changing only the depth field advances every `Grows` invariant. -/
theorem depthSet_grows (s : CGState) (d : Nat) : Grows s { s with depth := d } :=
  ⟨rfl, le_refl _, le_refl _, fun _ _ h => h, id, fun _ _ hp => ⟨rfl, hp⟩⟩

/-- `makeLabel` only advances the mint. -/
theorem makeLabel_facts (s : CGState) :
    Grows s (makeLabel s).2 ∧ (makeLabel s).2.fixups = s.fixups ∧
    (makeLabel s).2.labelToAddress = s.labelToAddress ∧
    (makeLabel s).2.depth = s.depth := by
  refine ⟨⟨rfl, le_refl _, ?_, fun _ _ h => h, id, fun _ _ hp => ⟨rfl, hp⟩⟩,
    rfl, rfl, rfl⟩
  simp [makeLabel]

/-- `emitPeek` appends and bumps the depth. -/
theorem emitPeek_facts (idx : Nat) (s : CGState) :
    Grows s (emitPeek idx s) ∧ (emitPeek idx s).fixups = s.fixups ∧
    (emitPeek idx s).labelToAddress = s.labelToAddress ∧
    (emitPeek idx s).depth = s.depth + 1 :=
  ⟨grows_trans (depthSet_grows s _)
    (grows_trans (emitOp_grows _ _) (emitBytes_grows _ _)), rfl, rfl, rfl⟩

/-- `emitInt` appends and bumps the depth. -/
theorem emitInt_facts (n : Nat) (s : CGState) :
    Grows s (emitInt n s) ∧ (emitInt n s).fixups = s.fixups ∧
    (emitInt n s).labelToAddress = s.labelToAddress ∧
    (emitInt n s).depth = s.depth + 1 :=
  ⟨grows_trans (depthSet_grows s _)
    (grows_trans (emitOp_grows _ _) (emitBytes_grows _ _)), rfl, rfl, rfl⟩

/-- `emitPushProto` appends and bumps the depth. -/
theorem emitPushProto_facts (fn : Nat) (s : CGState) :
    Grows s (emitPushProto fn s) ∧ (emitPushProto fn s).fixups = s.fixups ∧
    (emitPushProto fn s).labelToAddress = s.labelToAddress ∧
    (emitPushProto fn s).depth = s.depth + 1 :=
  ⟨grows_trans (depthSet_grows s _)
    (grows_trans (emitOp_grows _ _) (emitBytes_grows _ _)), rfl, rfl, rfl⟩

/-- `emitCall` emits the CALL byte only. -/
theorem emitCall_facts (s : CGState) :
    Grows s (emitCall s) ∧ (emitCall s).fixups = s.fixups ∧
    (emitCall s).labelToAddress = s.labelToAddress ∧
    (emitCall s).depth = s.depth :=
  ⟨emitOp_grows _ _, rfl, rfl, rfl⟩

/-- `emitPushFunc` bumps the depth and may pend (only) the entry
label. -/
theorem emitPushFunc_facts (entry : Nat) (s : CGState) :
    Grows s (emitPushFunc entry s) ∧
    UPgrow s (emitPushFunc entry s) (fun L => L = entry) ∧
    (emitPushFunc entry s).labelToAddress = s.labelToAddress ∧
    (emitPushFunc entry s).depth = s.depth + 1 := by
  obtain ⟨g, up, hlab, hdep⟩ :=
    emitFixup_facts entry (emitOp .PUSH_FUNC { s with depth := s.depth + 1 })
  refine ⟨grows_trans (depthSet_grows s _) (grows_trans (emitOp_grows _ _) g),
    ?_, hlab, hdep⟩
  exact upgrow_mono (upgrow_trans
      (upgrow_of_eq (X := fun _ => False) rfl rfl) up)
    (fun L h => h.elim (fun hf => hf.elim) (fun he => he))

/-- `emitJump` appends JUMP plus a fixup and may pend (only) the
target. -/
theorem emitJump_facts (L : Nat) (s : CGState) :
    Grows s (emitJump L s) ∧ UPgrow s (emitJump L s) (fun l => l = L) ∧
    (emitJump L s).labelToAddress = s.labelToAddress ∧
    (emitJump L s).depth = s.depth := by
  obtain ⟨g, up, hlab, hdep⟩ := emitFixup_facts L (emitOp .JUMP s)
  refine ⟨grows_trans (emitOp_grows _ _) g, ?_, hlab, hdep⟩
  exact upgrow_mono (upgrow_trans
      (upgrow_of_eq (X := fun _ => False) rfl rfl) up)
    (fun l h => h.elim (fun hf => hf.elim) (fun he => he))

/-- Inversion for `emitPop`: the depth was positive and is
decremented; nothing else changes but the appended POP byte. -/
theorem emitPop_facts {s s1 : CGState} (h : emitPop s = .ok s1) :
    Grows s s1 ∧ s1.fixups = s.fixups ∧ s1.labelToAddress = s.labelToAddress ∧
    s1.depth = s.depth - 1 ∧ s.depth ≠ 0 := by
  unfold emitPop at h
  by_cases hd : s.depth = 0
  · rw [if_pos hd] at h
    cases h
  · rw [if_neg hd] at h
    cases h
    exact ⟨grows_trans (depthSet_grows s _) (emitOp_grows _ _), rfl, rfl, rfl, hd⟩

/-- Inversion for `emitBinary`. -/
theorem emitBinary_facts {k : BinKind} {s s1 : CGState}
    (h : emitBinary k s = .ok s1) :
    Grows s s1 ∧ s1.fixups = s.fixups ∧ s1.labelToAddress = s.labelToAddress ∧
    s1.depth = s.depth - 1 ∧ s.depth ≠ 0 := by
  unfold emitBinary at h
  by_cases hd : s.depth = 0
  · rw [if_pos hd] at h
    cases h
  · rw [if_neg hd] at h
    cases h
    exact ⟨grows_trans (depthSet_grows s _) (emitOp_grows _ _), rfl, rfl, rfl, hd⟩

/-- Inversion for `emitReturn`. -/
theorem emitReturn_facts {s s1 : CGState} (h : emitReturn s = .ok s1) :
    Grows s s1 ∧ s1.fixups = s.fixups ∧ s1.labelToAddress = s.labelToAddress ∧
    s1.depth = s.depth - 1 ∧ s.depth ≠ 0 := by
  unfold emitReturn at h
  by_cases hd : s.depth = 0
  · rw [if_pos hd] at h
    cases h
  · rw [if_neg hd] at h
    cases h
    refine ⟨grows_trans (depthSet_grows s _) (grows_trans (emitOp_grows _ _)
      (grows_trans (emitBytes_grows _ _) (emitBytes_grows _ _))), rfl, rfl, rfl, hd⟩

/-- Inversion for `emitJumpFalse`. -/
theorem emitJumpFalse_facts {L : Nat} {s s1 : CGState}
    (h : emitJumpFalse L s = .ok s1) :
    Grows s s1 ∧ UPgrow s s1 (fun l => l = L) ∧
    s1.labelToAddress = s.labelToAddress ∧
    s1.depth = s.depth - 1 ∧ s.depth ≠ 0 := by
  unfold emitJumpFalse at h
  by_cases hd : s.depth = 0
  · rw [if_pos hd] at h
    cases h
  · rw [if_neg hd] at h
    cases h
    obtain ⟨g, up, hlab, hdep⟩ :=
      emitFixup_facts L (emitOp .JUMP_FALSE { s with depth := s.depth - 1 })
    refine ⟨grows_trans (depthSet_grows s _) (grows_trans (emitOp_grows _ _) g),
      ?_, hlab, hdep, hd⟩
    exact upgrow_mono (upgrow_trans
        (upgrow_of_eq (X := fun _ => False) rfl rfl) up)
      (fun l hh => hh.elim (fun hf => hf.elim) (fun he => he))

/-- Inversion for `emitPops`: `k` pops need and consume depth `k`. -/
theorem emitPops_facts (k : Nat) : ∀ s s1 : CGState, emitPops k s = .ok s1 →
    Grows s s1 ∧ s1.fixups = s.fixups ∧ s1.labelToAddress = s.labelToAddress ∧
    s1.depth = s.depth - k ∧ k ≤ s.depth := by
  induction k with
  | zero =>
    intro s s1 h
    cases h
    exact ⟨grows_refl _, rfl, rfl, rfl, by omega⟩
  | succ k ih =>
    intro s s1 h
    simp only [emitPops, bind, Except.bind] at h
    cases hp : emitPop s with
    | error e => rw [hp] at h; cases h
    | ok s2 =>
      rw [hp] at h
      obtain ⟨g1, hf1, hl1, hd1, hne1⟩ := emitPop_facts hp
      obtain ⟨g2, hf2, hl2, hd2, hk⟩ := ih s2 s1 h
      exact ⟨grows_trans g1 g2, hf2.trans hf1, hl2.trans hl1, by omega, by omega⟩

/-- `emitPops` succeeds whenever the depth covers the pop count. -/
theorem emitPops_ok (k : Nat) : ∀ s : CGState, k ≤ s.depth →
    ∃ s1, emitPops k s = .ok s1 := by
  induction k with
  | zero => intro s _; exact ⟨s, rfl⟩
  | succ k ih =>
    intro s hk
    have hd : s.depth ≠ 0 := by omega
    have hpop : emitPop s = .ok (emitOp .POP { s with depth := s.depth - 1 }) := by
      unfold emitPop
      rw [if_neg hd]
    obtain ⟨s1, h1⟩ := ih (emitOp .POP { s with depth := s.depth - 1 }) (by
      show k ≤ s.depth - 1
      omega)
    refine ⟨s1, ?_⟩
    simp only [emitPops, bind, Except.bind, hpop]
    exact h1

/-- `ScopeOk` transports along an unchanged function map. -/
theorem scopeOk_mono {sc : Scope} {s s1 : CGState} (hf : s1.funcs = s.funcs)
    (h : ScopeOk sc s) : ScopeOk sc s1 := by
  intro name entry hl
  obtain ⟨n, hn⟩ := h name entry hl
  exact ⟨n, by rw [hf]; exact hn⟩

/-- Name resolution only fails with the unbound-name assertion. -/
theorem scope_lookup_error (sc : Scope) (name : String) :
    ∀ e, sc.lookup name = .error e → e = .unboundName := by
  induction sc with
  | global funcs protos =>
    intro e h
    unfold Scope.lookup at h
    cases h1 : lookupA funcs name with
    | some entry => rw [h1] at h; cases h
    | none =>
      rw [h1] at h
      cases h2 : lookupA protos name with
      | some fn => rw [h2] at h; cases h
      | none => rw [h2] at h; cases h; rfl
  | func parent args ih =>
    intro e h
    unfold Scope.lookup at h
    cases h1 : lookupA args name with
    | some idx => rw [h1] at h; cases h
    | none => rw [h1] at h; exact ih e h
  | block parent locals ih =>
    intro e h
    unfold Scope.lookup at h
    cases h1 : lookupA locals name with
    | some idx => rw [h1] at h; cases h
    | none => rw [h1] at h; exact ih e h

/-- Adding a local can only shadow FUNC resolutions, never add one, so
`ScopeOk` is preserved. -/
theorem addLocal_scopeOk {sc sc1 : Scope} {name : String} {d : Nat}
    {s : CGState} (h : sc.addLocal name d = .ok sc1) (hok : ScopeOk sc s) :
    ScopeOk sc1 s := by
  cases sc with
  | global funcs protos => cases h
  | func parent args => cases h
  | block parent locals =>
    cases h
    intro n entry hl
    unfold Scope.lookup at hl
    cases h1 : lookupA ((name, d) :: locals) n with
    | some idx => rw [h1] at hl; cases hl
    | none =>
      rw [h1] at hl
      have h2 : lookupA locals n = none := by
        by_cases hn : name = n
        · simp [lookupA, hn] at h1
        · simpa [lookupA, hn] using h1
      refine hok n entry ?_
      unfold Scope.lookup
      rw [h2]
      exact hl

mutual

/-- Expression lowering: the depth rises by exactly one, the state
only grows (new pending fixups are function entry labels), and the
depth assertions cannot fire. -/
theorem lowerExpr_inv : ∀ (e : Expr) (sc : Scope) (s : CGState),
    (∀ s1, lowerExpr sc e s = .ok s1 →
      s1.depth = s.depth + 1 ∧
      (ScopeOk sc s → Grows s s1 ∧ UPgrow s s1 (funcLabel s))) ∧
    lowerExpr sc e s ≠ .error .depthAssert
  | .ref name, sc, s => by
    have hbody : lowerExpr sc (.ref name) s = lowerRefExpr sc name s := by
      simp [lowerExpr]
    rw [hbody]
    unfold lowerRefExpr
    cases hl : sc.lookup name with
    | error e =>
      constructor
      · intro s1 h
        simp [bind, Except.bind] at h
      · have := scope_lookup_error sc name e hl
        subst this
        intro h
        simp [bind, Except.bind] at h
    | ok b =>
      cases b with
      | FUNC entry =>
        constructor
        · intro s1 h
          simp only [bind, Except.bind] at h
          cases h
          obtain ⟨g, up, hlab, hdep⟩ := emitPushFunc_facts entry s
          refine ⟨hdep, fun hok => ⟨g, ?_⟩⟩
          exact upgrow_mono up (fun L hL => by
            subst hL
            exact hok name L hl)
        · intro h
          simp [bind, Except.bind] at h
      | PROTO fn =>
        constructor
        · intro s1 h
          simp only [bind, Except.bind] at h
          cases h
          obtain ⟨g, hf, hla, hdep⟩ := emitPushProto_facts fn s
          exact ⟨hdep, fun _ => ⟨g, upgrow_of_eq hf hla⟩⟩
        · intro h
          simp [bind, Except.bind] at h
      | ARG i =>
        constructor
        · intro s1 h
          simp only [bind, Except.bind] at h
          cases h
          obtain ⟨g, hf, hla, hdep⟩ := emitPeek_facts (u32 (s.depth + i + 1)) s
          exact ⟨hdep, fun _ => ⟨g, upgrow_of_eq hf hla⟩⟩
        · intro h
          simp [bind, Except.bind] at h
      | LOCAL d =>
        constructor
        · intro s1 h
          simp only [bind, Except.bind] at h
          cases h
          obtain ⟨g, hf, hla, hdep⟩ := emitPeek_facts (u32sub s.depth d) s
          exact ⟨hdep, fun _ => ⟨g, upgrow_of_eq hf hla⟩⟩
        · intro h
          simp [bind, Except.bind] at h
  | .intE n, sc, s => by
    constructor
    · intro s1 h
      simp only [lowerExpr] at h
      cases h
      obtain ⟨g, hf, hla, hdep⟩ := emitInt_facts n s
      exact ⟨hdep, fun _ => ⟨g, upgrow_of_eq hf hla⟩⟩
    · intro h
      simp [lowerExpr] at h
  | .binary k lhs rhs, sc, s => by
    have ihl := lowerExpr_inv lhs sc s
    constructor
    · intro sF h
      simp only [lowerExpr, bind, Except.bind] at h
      cases h1 : lowerExpr sc lhs s with
      | error e => simp only [h1] at h; cases h
      | ok s1 =>
        simp only [h1] at h
        have ihr := lowerExpr_inv rhs sc s1
        cases h2 : lowerExpr sc rhs s1 with
        | error e => simp only [h2] at h; cases h
        | ok s2 =>
          simp only [h2] at h
          obtain ⟨hd1, hrest1⟩ := (ihl.1) s1 h1
          obtain ⟨hd2, hrest2⟩ := (ihr.1) s2 h2
          obtain ⟨g3, hf3, hla3, hd3, hne3⟩ := emitBinary_facts h
          refine ⟨by omega, fun hok => ?_⟩
          obtain ⟨g1, up1⟩ := hrest1 hok
          obtain ⟨g2, up2⟩ := hrest2 (scopeOk_mono g1.funcs_eq hok)
          refine ⟨grows_trans g1 (grows_trans g2 g3), ?_⟩
          have up3 : UPgrow s2 sF (funcLabel s) := upgrow_of_eq hf3 hla3
          have hfl : ∀ L, funcLabel s1 L → funcLabel s L := by
            intro L hL
            obtain ⟨n, hn⟩ := hL
            exact ⟨n, by rw [← g1.funcs_eq]; exact hn⟩
          exact upgrow_mono (upgrow_trans up1 (upgrow_trans
            (upgrow_mono up2 hfl) up3))
            (fun L hL => by
              rcases hL with hL | hL | hL <;> exact hL)
    · intro h
      simp only [lowerExpr, bind, Except.bind] at h
      cases h1 : lowerExpr sc lhs s with
      | error e =>
        simp only [h1] at h
        cases h
        exact ihl.2 h1
      | ok s1 =>
        simp only [h1] at h
        have ihr := lowerExpr_inv rhs sc s1
        cases h2 : lowerExpr sc rhs s1 with
        | error e =>
          simp only [h2] at h
          cases h
          exact ihr.2 h2
        | ok s2 =>
          simp only [h2] at h
          obtain ⟨hd1, _⟩ := (ihl.1) s1 h1
          obtain ⟨hd2, _⟩ := (ihr.1) s2 h2
          unfold emitBinary at h
          rw [if_neg (by omega)] at h
          cases h
  | .call callee args, sc, s => by
    have iha := lowerExprsRev_inv args sc s
    constructor
    · intro sF h
      simp only [lowerExpr, bind, Except.bind] at h
      cases h1 : lowerExprsRev sc args s with
      | error e => simp only [h1] at h; cases h
      | ok s1 =>
        simp only [h1] at h
        have ihc := lowerExpr_inv callee sc s1
        cases h2 : lowerExpr sc callee s1 with
        | error e => simp only [h2] at h; cases h
        | ok s2 =>
          simp only [h2] at h
          cases h
          obtain ⟨hd1, hrest1⟩ := (iha.1) s1 h1
          obtain ⟨hd2, hrest2⟩ := (ihc.1) s2 h2
          obtain ⟨g3, hf3, hla3, hd3⟩ := emitCall_facts s2
          constructor
          · show (emitCall s2).depth - args.length = s.depth + 1
            rw [hd3]
            omega
          · intro hok
            obtain ⟨g1, up1⟩ := hrest1 hok
            obtain ⟨g2, up2⟩ := hrest2 (scopeOk_mono g1.funcs_eq hok)
            have gd : Grows (emitCall s2)
                { emitCall s2 with depth := (emitCall s2).depth - args.length } :=
              depthSet_grows _ _
            refine ⟨grows_trans g1 (grows_trans g2 (grows_trans g3 gd)), ?_⟩
            have up3 : UPgrow s2
                { emitCall s2 with depth := (emitCall s2).depth - args.length }
                (funcLabel s) := upgrow_of_eq hf3 hla3
            have hfl : ∀ L, funcLabel s1 L → funcLabel s L := by
              intro L hL
              obtain ⟨n, hn⟩ := hL
              exact ⟨n, by rw [← g1.funcs_eq]; exact hn⟩
            exact upgrow_mono (upgrow_trans up1 (upgrow_trans
              (upgrow_mono up2 hfl) up3))
              (fun L hL => by rcases hL with hL | hL | hL <;> exact hL)
    · intro h
      simp only [lowerExpr, bind, Except.bind] at h
      cases h1 : lowerExprsRev sc args s with
      | error e =>
        simp only [h1] at h
        cases h
        exact iha.2 h1
      | ok s1 =>
        simp only [h1] at h
        have ihc := lowerExpr_inv callee sc s1
        cases h2 : lowerExpr sc callee s1 with
        | error e =>
          simp only [h2] at h
          cases h
          exact ihc.2 h2
        | ok s2 =>
          simp only [h2] at h
          cases h
termination_by structural e _ _ => e

/-- Reverse-order argument lowering: the depth rises by the argument
count, with the same growth facts. -/
theorem lowerExprsRev_inv : ∀ (es : ExprList) (sc : Scope) (s : CGState),
    (∀ s1, lowerExprsRev sc es s = .ok s1 →
      s1.depth = s.depth + es.length ∧
      (ScopeOk sc s → Grows s s1 ∧ UPgrow s s1 (funcLabel s))) ∧
    lowerExprsRev sc es s ≠ .error .depthAssert
  | .nil, sc, s => by
    constructor
    · intro s1 h
      cases h
      exact ⟨rfl, fun _ => ⟨grows_refl _, upgrow_of_eq rfl rfl⟩⟩
    · intro h
      simp [lowerExprsRev] at h
  | .cons e es, sc, s => by
    have ihs := lowerExprsRev_inv es sc s
    constructor
    · intro sF h
      simp only [lowerExprsRev, bind, Except.bind] at h
      cases h1 : lowerExprsRev sc es s with
      | error e2 => simp only [h1] at h; cases h
      | ok s1 =>
        simp only [h1] at h
        have ihe := lowerExpr_inv e sc s1
        obtain ⟨hd1, hrest1⟩ := (ihs.1) s1 h1
        obtain ⟨hd2, hrest2⟩ := (ihe.1) sF h
        refine ⟨by simp only [ExprList.length]; omega, fun hok => ?_⟩
        obtain ⟨g1, up1⟩ := hrest1 hok
        obtain ⟨g2, up2⟩ := hrest2 (scopeOk_mono g1.funcs_eq hok)
        refine ⟨grows_trans g1 g2, ?_⟩
        have hfl : ∀ L, funcLabel s1 L → funcLabel s L := by
          intro L hL
          obtain ⟨n, hn⟩ := hL
          exact ⟨n, by rw [← g1.funcs_eq]; exact hn⟩
        exact upgrow_mono (upgrow_trans up1 (upgrow_mono up2 hfl))
          (fun L hL => by rcases hL with hL | hL <;> exact hL)
    · intro h
      simp only [lowerExprsRev, bind, Except.bind] at h
      cases h1 : lowerExprsRev sc es s with
      | error e2 =>
        simp only [h1] at h
        cases h
        exact ihs.2 h1
      | ok s1 =>
        simp only [h1] at h
        exact (lowerExpr_inv e sc s1).2 h
termination_by structural es _ _ => es

end

/-- Transport of function-entry labels along an unchanged function
map. -/
theorem funcLabel_mono {s s1 : CGState} (hf : s1.funcs = s.funcs) :
    ∀ L, funcLabel s1 L → funcLabel s L := by
  intro L hL
  obtain ⟨n, hn⟩ := hL
  exact ⟨n, by rw [← hf]; exact hn⟩

/-- A fresh block scope produces no new FUNC resolutions. -/
theorem blockScope_scopeOk {sc : Scope} {s : CGState} (l : List (String × Nat))
    (h : ScopeOk sc s) : ScopeOk (.block sc l) s := by
  intro n entry hl
  unfold Scope.lookup at hl
  cases h1 : lookupA l n with
  | some idx => rw [h1] at hl; cases hl
  | none => rw [h1] at hl; exact h n entry hl

/-- A function scope produces no new FUNC resolutions. -/
theorem funcScope_scopeOk {sc : Scope} {s : CGState}
    (args : List (String × Nat)) (h : ScopeOk sc s) :
    ScopeOk (.func sc args) s := by
  intro n entry hl
  unfold Scope.lookup at hl
  cases h1 : lookupA args n with
  | some idx => rw [h1] at hl; cases hl
  | none => rw [h1] at hl; exact h n entry hl

/-- `AddLocal` records exactly one more local. -/
theorem addLocal_count {sc sc1 : Scope} {name : String} {d : Nat}
    (h : sc.addLocal name d = .ok sc1) :
    sc1.numberOfLocals = sc.numberOfLocals + 1 := by
  cases sc with
  | global funcs protos => cases h
  | func parent args => cases h
  | block parent locals =>
    cases h
    simp [Scope.numberOfLocals]

/-- Discharge an allowed label that ends up bound. -/
theorem upgrow_elim_bound {s sf : CGState} {X : Nat → Prop} {L0 : Nat}
    (h : UPgrow s sf (fun L => X L ∨ L = L0)) (hb : isBound sf L0) :
    UPgrow s sf X := by
  intro L hUP
  rcases h L hUP with h1 | h1
  · exact .inl h1
  · rcases h1 with h1 | h1
    · exact .inr h1
    · subst h1
      exact absurd hb hUP.2

/-- Boundness transports along `Grows`. -/
theorem isBound_mono {s s1 : CGState} (g : Grows s s1) {L : Nat}
    (h : isBound s L) : isBound s1 L := by
  unfold isBound at h ⊢
  cases ha : lookupL s.labelToAddress L with
  | none => rw [ha] at h; simp at h
  | some a => simp [g.bound_mono L a ha]

/-- Advancing only the label mint keeps every invariant. -/
theorem nextLabelSet_grows (s : CGState) (n : Nat) (h : s.nextLabel ≤ n) :
    Grows s { s with nextLabel := n } :=
  ⟨rfl, le_refl _, h, fun _ _ hh => hh, id, fun _ _ hp => ⟨rfl, hp⟩⟩

mutual

/-- Statement lowering: on success — when every `Let` carries an
initialiser — the depth changes exactly by the number of locals added
to the received scope; the state only grows (new pending fixups are
function entry labels, while/if labels being bound before the
statement finishes) and scope well-formedness is kept; and under the
same initialiser condition the depth assertions cannot fire. -/
theorem lowerStmt_inv : ∀ (st : Stmt) (sc : Scope) (s : CGState),
    (∀ s1 sc1, lowerStmt sc st s = .ok (s1, sc1) →
      (st.wellInit = true →
        s1.depth + sc.numberOfLocals = s.depth + sc1.numberOfLocals) ∧
      (ScopeOk sc s → Grows s s1 ∧ UPgrow s s1 (funcLabel s) ∧ ScopeOk sc1 s1)) ∧
    (st.wellInit = true → lowerStmt sc st s ≠ .error .depthAssert)
  | .block body, sc, s => by
    have ihb := lowerStmts_inv body (.block sc []) s
    constructor
    · intro s1 sc1 h
      simp only [lowerStmt, bind, Except.bind] at h
      split at h
      · exact Except.noConfusion h
      · next p hp =>
        obtain ⟨sM, bs⟩ := p
        split at h
        · exact Except.noConfusion h
        · next s2 h2 =>
          split at h
          · next hdep =>
            cases h
            obtain ⟨g2, hf2, hl2, hd2, hk2⟩ := emitPops_facts _ _ _ h2
            refine ⟨fun _ => by omega, fun hok => ?_⟩
            obtain ⟨_, hrest⟩ := (ihb.1) sM bs hp
            obtain ⟨g1, up1, _⟩ := hrest (blockScope_scopeOk [] hok)
            refine ⟨grows_trans g1 g2, ?_, scopeOk_mono
              (g2.funcs_eq.trans g1.funcs_eq) hok⟩
            exact upgrow_mono
              (upgrow_trans up1 (upgrow_of_eq (X := fun _ => False) hf2 hl2))
              (fun L hL => hL.elim id False.elim)
          · exact Except.noConfusion h
    · intro hwi h
      simp only [Stmt.wellInit] at hwi
      simp only [lowerStmt, bind, Except.bind] at h
      split at h
      · next e he =>
        cases h
        exact (ihb.2) hwi he
      · next p hp =>
        obtain ⟨sM, bs⟩ := p
        obtain ⟨hdM0, _⟩ := (ihb.1) sM bs hp
        have hdM := hdM0 hwi
        rw [show Scope.numberOfLocals (Scope.block sc []) = 0 from rfl] at hdM
        have hle : Scope.numberOfLocals bs ≤ sM.depth := by omega
        obtain ⟨s2, h2⟩ := emitPops_ok _ _ hle
        simp only [h2] at h
        obtain ⟨_, _, _, hd2, _⟩ := emitPops_facts _ _ _ h2
        split at h
        · exact Except.noConfusion h
        · next hne => exact hne (by omega)
  | .whileS cond body, sc, s => by
    have hdA : (emitLabel (s.nextLabel + 1)
        { s with nextLabel := s.nextLabel + 1 + 1 }).depth = s.depth := rfl
    constructor
    · intro sF scF h
      simp only [lowerStmt, makeLabel, bind, Except.bind] at h
      split at h
      · exact Except.noConfusion h
      · next s4 h4 =>
        split at h
        · exact Except.noConfusion h
        · next s5 h5 =>
          split at h
          · exact Except.noConfusion h
          · next p hp =>
            obtain ⟨s6, sc6⟩ := p
            cases h
            obtain ⟨hd6g, hrest6⟩ := ((lowerStmt_inv body sc s5).1) s6 sc6 hp
            obtain ⟨hd4, hrest4⟩ := (lowerExpr_inv cond sc _).1 s4 h4
            have hd4n : s4.depth = s.depth + 1 := hd4.trans rfl
            obtain ⟨g5, up5, hl5, hd5, hne5⟩ := emitJumpFalse_facts h5
            obtain ⟨g7, up7, hl7, hd7⟩ := emitJump_facts (s.nextLabel + 1) s6
            obtain ⟨g8, hb8, up8, hf8, hd8⟩ :=
              emitLabel_facts (s.nextLabel + 1 + 1) (emitJump (s.nextLabel + 1) s6)
            have gA : Grows s (emitLabel (s.nextLabel + 1)
                { s with nextLabel := s.nextLabel + 1 + 1 }) :=
              grows_trans (nextLabelSet_grows s _ (by omega))
                (emitLabel_facts (s.nextLabel + 1) _).1
            have hbA : isBound (emitLabel (s.nextLabel + 1)
                { s with nextLabel := s.nextLabel + 1 + 1 }) (s.nextLabel + 1) :=
              (emitLabel_facts (s.nextLabel + 1) _).2.1
            constructor
            · intro hwi
              simp only [Stmt.wellInit] at hwi
              have hd6 := hd6g hwi
              simp only [hd8, hd7]
              omega
            · intro hok
              have hokA := scopeOk_mono gA.funcs_eq hok
              obtain ⟨g4, up4⟩ := hrest4 hokA
              have hok5 := scopeOk_mono (g5.funcs_eq.trans
                (g4.funcs_eq.trans gA.funcs_eq)) hok
              obtain ⟨g6, up6, hok6⟩ := hrest6 hok5
              have gAll : Grows s _ := grows_trans gA (grows_trans g4
                (grows_trans g5 (grows_trans g6 (grows_trans g7 g8))))
              refine ⟨gAll, ?_,
                scopeOk_mono (g8.funcs_eq.trans g7.funcs_eq) hok6⟩
              have upA : UPgrow s (emitLabel (s.nextLabel + 1)
                  { s with nextLabel := s.nextLabel + 1 + 1 })
                  (fun _ => False) :=
                upgrow_mono (upgrow_trans
                  (upgrow_of_eq (X := fun _ => False) rfl rfl)
                  (emitLabel_facts (s.nextLabel + 1) _).2.2.1)
                  (fun L hL => hL.elim id id)
              have upAll := upgrow_trans upA (upgrow_trans up4
                (upgrow_trans up5 (upgrow_trans up6 (upgrow_trans up7 up8))))
              have upCanon : UPgrow s (emitLabel (s.nextLabel + 1 + 1)
                  (emitJump (s.nextLabel + 1) s6)) (fun L =>
                  (funcLabel s L ∨ L = s.nextLabel + 1) ∨ L = s.nextLabel + 1 + 1) := by
                refine upgrow_mono upAll ?_
                intro L hL
                rcases hL with hL | hL | hL | hL | hL | hL
                · exact hL.elim
                · exact .inl (.inl (funcLabel_mono gA.funcs_eq L hL))
                · exact .inr hL
                · exact .inl (.inl (funcLabel_mono
                    ((g5.funcs_eq.trans (g4.funcs_eq.trans gA.funcs_eq))) L hL))
                · exact .inl (.inr hL)
                · exact hL.elim
              have hbE : isBound (emitLabel (s.nextLabel + 1 + 1)
                  (emitJump (s.nextLabel + 1) s6)) (s.nextLabel + 1) :=
                isBound_mono (grows_trans g4 (grows_trans g5
                  (grows_trans g6 (grows_trans g7 g8)))) hbA
              exact upgrow_mono
                (upgrow_elim_bound (upgrow_elim_bound upCanon hb8) hbE)
                (fun L hL => hL)
    · intro hwi h
      simp only [Stmt.wellInit] at hwi
      simp only [lowerStmt, makeLabel, bind, Except.bind] at h
      split at h
      · next e he =>
        cases h
        exact (lowerExpr_inv cond sc _).2 he
      · next s4 h4 =>
        split at h
        · next e he =>
          cases h
          obtain ⟨hd4, _⟩ := (lowerExpr_inv cond sc _).1 s4 h4
          have hd4n : s4.depth = s.depth + 1 := hd4.trans rfl
          unfold emitJumpFalse at he
          rw [if_neg (by omega)] at he
          exact Except.noConfusion he
        · next s5 h5 =>
          split at h
          · next e he =>
            cases h
            exact ((lowerStmt_inv body sc _).2) hwi he
          · next p hp =>
            obtain ⟨s6, sc6⟩ := p
            exact Except.noConfusion h
  | .ifS cond thenS elseS, sc, s => by
    have hdA : (emitLabel (s.nextLabel + 1)
        { s with nextLabel := s.nextLabel + 1 + 1 + 1 }).depth = s.depth := rfl
    cases elseS with
    | none =>
      constructor
      · intro sF scF h
        simp only [lowerStmt, makeLabel, bind, Except.bind] at h
        split at h
        · exact Except.noConfusion h
        · next s5 h5 =>
          split at h
          · exact Except.noConfusion h
          · next s6 h6 =>
            split at h
            · exact Except.noConfusion h
            · next p hp =>
              obtain ⟨s7, sc7⟩ := p
              cases h
              obtain ⟨hd5, hrest5⟩ := (lowerExpr_inv cond sc _).1 s5 h5
              have hd5n : s5.depth = s.depth + 1 := hd5.trans rfl
              obtain ⟨g6, up6, hl6, hd6, hne6⟩ := emitJumpFalse_facts h6
              obtain ⟨hd7g, hrest7⟩ := ((lowerStmt_inv thenS sc s6).1) s7 sc7 hp
              have gA : Grows s (emitLabel (s.nextLabel + 1)
                  { s with nextLabel := s.nextLabel + 1 + 1 + 1 }) :=
                grows_trans (nextLabelSet_grows s _ (by omega))
                  (emitLabel_facts (s.nextLabel + 1) _).1
              have upA : UPgrow s (emitLabel (s.nextLabel + 1)
                  { s with nextLabel := s.nextLabel + 1 + 1 + 1 })
                  (fun _ => False) :=
                upgrow_mono (upgrow_trans
                  (upgrow_of_eq (X := fun _ => False) rfl rfl)
                  (emitLabel_facts (s.nextLabel + 1) _).2.2.1)
                  (fun L hL => hL.elim id id)
              obtain ⟨g8, up8, hl8, hd8⟩ :=
                emitJump_facts (s.nextLabel + 1 + 1 + 1) s7
              obtain ⟨g9, hb9, up9, hf9, hd9⟩ :=
                emitLabel_facts (s.nextLabel + 1 + 1)
                  (emitJump (s.nextLabel + 1 + 1 + 1) s7)
              obtain ⟨g10, hb10, up10, hf10, hd10⟩ :=
                emitLabel_facts (s.nextLabel + 1 + 1 + 1)
                  (emitLabel (s.nextLabel + 1 + 1)
                    (emitJump (s.nextLabel + 1 + 1 + 1) s7))
              constructor
              · intro hwi
                simp only [Stmt.wellInit, OptStmt.wellInit,
                  Bool.and_eq_true] at hwi
                have hd7 := hd7g hwi.1
                simp only [hd10, hd9, hd8]
                omega
              · intro hok
                have hokA := scopeOk_mono gA.funcs_eq hok
                obtain ⟨g5, up5⟩ := hrest5 hokA
                obtain ⟨g7, up7, hok7⟩ := hrest7 (scopeOk_mono (g6.funcs_eq.trans
                  (g5.funcs_eq.trans gA.funcs_eq)) hok)
                have gAll : Grows s _ := grows_trans gA (grows_trans g5
                  (grows_trans g6 (grows_trans g7 (grows_trans g8
                    (grows_trans g9 g10)))))
                refine ⟨gAll, ?_, scopeOk_mono (g10.funcs_eq.trans
                  (g9.funcs_eq.trans g8.funcs_eq)) hok7⟩
                have upAll := upgrow_trans upA (upgrow_trans up5
                  (upgrow_trans up6 (upgrow_trans up7 (upgrow_trans up8
                    (upgrow_trans up9 up10)))))
                have upCanon : UPgrow s (emitLabel (s.nextLabel + 1 + 1 + 1)
                    (emitLabel (s.nextLabel + 1 + 1)
                      (emitJump (s.nextLabel + 1 + 1 + 1) s7))) (fun L =>
                    ((funcLabel s L ∨ L = s.nextLabel + 1 + 1 + 1) ∨
                      L = s.nextLabel + 1 + 1)) := by
                  refine upgrow_mono upAll ?_
                  intro L hL
                  rcases hL with hL | hL | hL | hL | hL | hL | hL
                  · exact hL.elim
                  · exact .inl (.inl (funcLabel_mono gA.funcs_eq L hL))
                  · exact .inr hL
                  · exact .inl (.inl (funcLabel_mono ((g6.funcs_eq.trans
                      (g5.funcs_eq.trans gA.funcs_eq))) L hL))
                  · exact .inl (.inr hL)
                  · exact hL.elim
                  · exact hL.elim
                have hbEl : isBound (emitLabel (s.nextLabel + 1 + 1 + 1)
                    (emitLabel (s.nextLabel + 1 + 1)
                      (emitJump (s.nextLabel + 1 + 1 + 1) s7)))
                    (s.nextLabel + 1 + 1) :=
                  isBound_mono g10 hb9
                exact upgrow_mono (upgrow_elim_bound
                  (upgrow_elim_bound upCanon hbEl) hb10) (fun L hL => hL)
      · intro hwi h
        simp only [Stmt.wellInit, OptStmt.wellInit, Bool.and_eq_true] at hwi
        simp only [lowerStmt, makeLabel, bind, Except.bind] at h
        split at h
        · next e he =>
          cases h
          exact (lowerExpr_inv cond sc _).2 he
        · next s5 h5 =>
          split at h
          · next e he =>
            cases h
            obtain ⟨hd5, _⟩ := (lowerExpr_inv cond sc _).1 s5 h5
            have hd5n : s5.depth = s.depth + 1 := hd5.trans rfl
            unfold emitJumpFalse at he
            rw [if_neg (by omega)] at he
            exact Except.noConfusion he
          · next s6 h6 =>
            split at h
            · next e he =>
              cases h
              exact ((lowerStmt_inv thenS sc s6).2) hwi.1 he
            · next p hp =>
              obtain ⟨s7, sc7⟩ := p
              exact Except.noConfusion h
    | some els =>
      constructor
      · intro sF scF h
        simp only [lowerStmt, makeLabel, bind, Except.bind] at h
        split at h
        · exact Except.noConfusion h
        · next s5 h5 =>
          split at h
          · exact Except.noConfusion h
          · next s6 h6 =>
            split at h
            · exact Except.noConfusion h
            · next p hp =>
              obtain ⟨s7, sc7⟩ := p
              split at h
              · exact Except.noConfusion h
              · next q hq =>
                obtain ⟨s10, sc10⟩ := q
                cases h
                obtain ⟨hd5, hrest5⟩ := (lowerExpr_inv cond sc _).1 s5 h5
                have hd5n : s5.depth = s.depth + 1 := hd5.trans rfl
                obtain ⟨g6, up6, hl6, hd6, hne6⟩ := emitJumpFalse_facts h6
                obtain ⟨hd7g, hrest7⟩ := ((lowerStmt_inv thenS sc s6).1) s7 sc7 hp
                obtain ⟨hd10g, hrest10⟩ := ((lowerStmt_inv els sc7 (emitLabel (s.nextLabel + 1 + 1)
                  (emitJump (s.nextLabel + 1 + 1 + 1) s7))).1) s10 sc10 hq
                have gA : Grows s (emitLabel (s.nextLabel + 1)
                    { s with nextLabel := s.nextLabel + 1 + 1 + 1 }) :=
                  grows_trans (nextLabelSet_grows s _ (by omega))
                    (emitLabel_facts (s.nextLabel + 1) _).1
                have upA : UPgrow s (emitLabel (s.nextLabel + 1)
                    { s with nextLabel := s.nextLabel + 1 + 1 + 1 })
                    (fun _ => False) :=
                  upgrow_mono (upgrow_trans
                    (upgrow_of_eq (X := fun _ => False) rfl rfl)
                    (emitLabel_facts (s.nextLabel + 1) _).2.2.1)
                    (fun L hL => hL.elim id id)
                obtain ⟨g8, up8, hl8, hd8⟩ :=
                  emitJump_facts (s.nextLabel + 1 + 1 + 1) s7
                obtain ⟨g9, hb9, up9, hf9, hd9⟩ :=
                  emitLabel_facts (s.nextLabel + 1 + 1)
                    (emitJump (s.nextLabel + 1 + 1 + 1) s7)
                obtain ⟨g11, hb11, up11, hf11, hd11⟩ :=
                  emitLabel_facts (s.nextLabel + 1 + 1 + 1) s10
                constructor
                · intro hwi
                  simp only [Stmt.wellInit, OptStmt.wellInit,
                    Bool.and_eq_true] at hwi
                  have hd7 := hd7g hwi.1
                  have hd10 := hd10g hwi.2
                  simp only [hd9, hd8] at hd10
                  simp only [hd11]
                  omega
                · intro hok
                  have hokA := scopeOk_mono gA.funcs_eq hok
                  obtain ⟨g5, up5⟩ := hrest5 hokA
                  obtain ⟨g7, up7, hok7⟩ := hrest7 (scopeOk_mono
                    (g6.funcs_eq.trans (g5.funcs_eq.trans gA.funcs_eq)) hok)
                  obtain ⟨g10, up10, hok10⟩ := hrest10 (scopeOk_mono
                    (g9.funcs_eq.trans g8.funcs_eq) hok7)
                  have gAll : Grows s _ := grows_trans gA (grows_trans g5
                    (grows_trans g6 (grows_trans g7 (grows_trans g8
                      (grows_trans g9 (grows_trans g10 g11))))))
                  refine ⟨gAll, ?_, scopeOk_mono g11.funcs_eq hok10⟩
                  have upAll := upgrow_trans upA (upgrow_trans up5
                    (upgrow_trans up6 (upgrow_trans up7 (upgrow_trans up8
                      (upgrow_trans up9 (upgrow_trans up10 up11))))))
                  have hfeq7 : s7.funcs = s.funcs :=
                    g7.funcs_eq.trans (g6.funcs_eq.trans
                      (g5.funcs_eq.trans gA.funcs_eq))
                  have upCanon : UPgrow s (emitLabel (s.nextLabel + 1 + 1 + 1)
                      s10) (fun L =>
                      ((funcLabel s L ∨ L = s.nextLabel + 1 + 1 + 1) ∨
                        L = s.nextLabel + 1 + 1)) := by
                    refine upgrow_mono upAll ?_
                    intro L hL
                    rcases hL with hL | hL | hL | hL | hL | hL | hL | hL
                    · exact hL.elim
                    · exact .inl (.inl (funcLabel_mono gA.funcs_eq L hL))
                    · exact .inr hL
                    · exact .inl (.inl (funcLabel_mono ((g6.funcs_eq.trans
                        (g5.funcs_eq.trans gA.funcs_eq))) L hL))
                    · exact .inl (.inr hL)
                    · exact hL.elim
                    · exact .inl (.inl (funcLabel_mono
                        (g9.funcs_eq.trans (g8.funcs_eq.trans hfeq7)) L hL))
                    · exact hL.elim
                  have hbEl : isBound (emitLabel (s.nextLabel + 1 + 1 + 1) s10)
                      (s.nextLabel + 1 + 1) :=
                    isBound_mono (grows_trans g10 g11) hb9
                  exact upgrow_mono (upgrow_elim_bound
                    (upgrow_elim_bound upCanon hbEl) hb11) (fun L hL => hL)
      · intro hwi h
        simp only [Stmt.wellInit, OptStmt.wellInit, Bool.and_eq_true] at hwi
        simp only [lowerStmt, makeLabel, bind, Except.bind] at h
        split at h
        · next e he =>
          cases h
          exact (lowerExpr_inv cond sc _).2 he
        · next s5 h5 =>
          split at h
          · next e he =>
            cases h
            obtain ⟨hd5, _⟩ := (lowerExpr_inv cond sc _).1 s5 h5
            have hd5n : s5.depth = s.depth + 1 := hd5.trans rfl
            unfold emitJumpFalse at he
            rw [if_neg (by omega)] at he
            exact Except.noConfusion he
          · next s6 h6 =>
            split at h
            · next e he =>
              cases h
              exact ((lowerStmt_inv thenS sc s6).2) hwi.1 he
            · next p hp =>
              obtain ⟨s7, sc7⟩ := p
              split at h
              · next e he =>
                cases h
                exact ((lowerStmt_inv els sc7 (emitLabel (s.nextLabel + 1 + 1)
                  (emitJump (s.nextLabel + 1 + 1 + 1) s7))).2) hwi.2 he
              · next q hq =>
                obtain ⟨s10, sc10⟩ := q
                exact Except.noConfusion h
  | .exprS e, sc, s => by
    constructor
    · intro s1 sc1 h
      simp only [lowerStmt, bind, Except.bind] at h
      split at h
      · exact Except.noConfusion h
      · next sE hE =>
        split at h
        · exact Except.noConfusion h
        · next s2 h2 =>
          cases h
          obtain ⟨hdE, hrestE⟩ := (lowerExpr_inv e sc s).1 sE hE
          obtain ⟨g2, hf2, hl2, hd2, hne2⟩ := emitPop_facts h2
          refine ⟨fun _ => by omega, fun hok => ?_⟩
          obtain ⟨gE, upE⟩ := hrestE hok
          exact ⟨grows_trans gE g2,
            upgrow_mono (upgrow_trans upE
              (upgrow_of_eq (X := fun _ => False) hf2 hl2))
              (fun L hL => hL.elim id False.elim),
            scopeOk_mono (g2.funcs_eq.trans gE.funcs_eq) hok⟩
    · intro _ h
      simp only [lowerStmt, bind, Except.bind] at h
      split at h
      · next e2 he =>
        cases h
        exact (lowerExpr_inv e sc s).2 he
      · next sE hE =>
        split at h
        · next e2 he =>
          cases h
          obtain ⟨hdE, _⟩ := (lowerExpr_inv e sc s).1 sE hE
          unfold emitPop at he
          rw [if_neg (by omega)] at he
          exact Except.noConfusion he
        · next s2 h2 => exact Except.noConfusion h
  | .returnS e, sc, s => by
    constructor
    · intro s1 sc1 h
      simp only [lowerStmt, bind, Except.bind] at h
      split at h
      · exact Except.noConfusion h
      · next sE hE =>
        split at h
        · exact Except.noConfusion h
        · next s2 h2 =>
          cases h
          obtain ⟨hdE, hrestE⟩ := (lowerExpr_inv e sc s).1 sE hE
          obtain ⟨g2, hf2, hl2, hd2, hne2⟩ := emitReturn_facts h2
          refine ⟨fun _ => by omega, fun hok => ?_⟩
          obtain ⟨gE, upE⟩ := hrestE hok
          exact ⟨grows_trans gE g2,
            upgrow_mono (upgrow_trans upE
              (upgrow_of_eq (X := fun _ => False) hf2 hl2))
              (fun L hL => hL.elim id False.elim),
            scopeOk_mono (g2.funcs_eq.trans gE.funcs_eq) hok⟩
    · intro _ h
      simp only [lowerStmt, bind, Except.bind] at h
      split at h
      · next e2 he =>
        cases h
        exact (lowerExpr_inv e sc s).2 he
      · next sE hE =>
        split at h
        · next e2 he =>
          cases h
          obtain ⟨hdE, _⟩ := (lowerExpr_inv e sc s).1 sE hE
          unfold emitReturn at he
          rw [if_neg (by omega)] at he
          exact Except.noConfusion he
        · next s2 h2 => exact Except.noConfusion h
  | .letS name ty init, sc, s => by
    cases init with
    | none =>
      constructor
      · intro s1 sc1 h
        simp only [lowerStmt, bind, Except.bind] at h
        split at h
        · exact Except.noConfusion h
        · next sc2 hsc =>
          cases h
          refine ⟨fun hwi => by simp [Stmt.wellInit] at hwi, fun hok => ?_⟩
          exact ⟨grows_refl _, upgrow_of_eq rfl rfl, addLocal_scopeOk hsc hok⟩
      · intro hwi _
        simp [Stmt.wellInit] at hwi
    | some e =>
      constructor
      · intro s1 sc1 h
        simp only [lowerStmt, bind, Except.bind] at h
        split at h
        · exact Except.noConfusion h
        · next sE hE =>
          split at h
          · exact Except.noConfusion h
          · next sc2 hsc =>
            cases h
            have hcnt := addLocal_count hsc
            obtain ⟨hdE, hrestE⟩ := (lowerExpr_inv e sc s).1 _ hE
            refine ⟨fun _ => by omega, fun hok => ?_⟩
            obtain ⟨gE, upE⟩ := hrestE hok
            exact ⟨gE, upE,
              addLocal_scopeOk hsc (scopeOk_mono gE.funcs_eq hok)⟩
      · intro _ h
        simp only [lowerStmt, bind, Except.bind] at h
        split at h
        · next e2 he =>
          cases h
          exact (lowerExpr_inv e sc s).2 he
        · next sE hE =>
          split at h
          · next e2 he =>
            cases h
            cases sc <;> simp [Scope.addLocal] at he
          · next sc2 hsc => exact Except.noConfusion h
termination_by structural st _ _ => st

/-- Sequential statement lowering: the composite of `lowerStmt_inv`
over a block's statements. -/
theorem lowerStmts_inv : ∀ (sts : StmtList) (sc : Scope) (s : CGState),
    (∀ s1 sc1, lowerStmts sc sts s = .ok (s1, sc1) →
      (sts.wellInit = true →
        s1.depth + sc.numberOfLocals = s.depth + sc1.numberOfLocals) ∧
      (ScopeOk sc s → Grows s s1 ∧ UPgrow s s1 (funcLabel s) ∧ ScopeOk sc1 s1)) ∧
    (sts.wellInit = true → lowerStmts sc sts s ≠ .error .depthAssert)
  | .nil, sc, s => by
    constructor
    · intro s1 sc1 h
      cases h
      exact ⟨fun _ => rfl, fun hok => ⟨grows_refl _, upgrow_of_eq rfl rfl, hok⟩⟩
    · intro _ h
      simp [lowerStmts] at h
  | .cons st sts, sc, s => by
    have ih1 := lowerStmt_inv st sc s
    constructor
    · intro s1 sc1 h
      simp only [lowerStmts, bind, Except.bind] at h
      split at h
      · exact Except.noConfusion h
      · next p hp =>
        obtain ⟨sA, scA⟩ := p
        have ih2 := lowerStmts_inv sts scA sA
        obtain ⟨hdAg, hrestA⟩ := (ih1.1) sA scA hp
        obtain ⟨hdBg, hrestB⟩ := (ih2.1) s1 sc1 h
        constructor
        · intro hwi
          simp only [StmtList.wellInit, Bool.and_eq_true] at hwi
          have hdA := hdAg hwi.1
          have hdB := hdBg hwi.2
          omega
        · intro hok
          obtain ⟨gA, upA, hokA⟩ := hrestA hok
          obtain ⟨gB, upB, hokB⟩ := hrestB hokA
          exact ⟨grows_trans gA gB,
            upgrow_mono (upgrow_trans upA
              (upgrow_mono upB (funcLabel_mono gA.funcs_eq)))
              (fun L hL => hL.elim id id), hokB⟩
    · intro hwi h
      simp only [StmtList.wellInit, Bool.and_eq_true] at hwi
      simp only [lowerStmts, bind, Except.bind] at h
      split at h
      · next e he =>
        cases h
        exact (ih1.2) hwi.1 he
      · next p hp =>
        obtain ⟨sA, scA⟩ := p
        exact ((lowerStmts_inv sts scA sA).2) hwi.2 h
termination_by structural sts _ _ => sts

end

/-- Appending one binding changes a lookup only at the new key, and
only if the key was absent. -/
theorem lookupA_append_single {β : Type} : ∀ (m : List (String × β))
    (k : String) (v : β) (k2 : String) (w : β),
    lookupA (m ++ [(k, v)]) k2 = some w →
    lookupA m k2 = some w ∨ (k = k2 ∧ w = v)
  | [], k, v, k2, w, h => by
    simp only [List.nil_append, lookupA] at h
    split at h
    · next he => cases h; exact .inr ⟨he, rfl⟩
    · exact Option.noConfusion h
  | (a, b) :: rest, k, v, k2, w, h => by
    simp only [List.cons_append, lookupA] at h
    by_cases ha : a = k2
    · rw [if_pos ha] at h
      cases h
      exact .inl (by simp [lookupA, ha])
    · rw [if_neg ha] at h
      rcases lookupA_append_single rest k v k2 w h with h1 | h1
      · exact .inl (by simp [lookupA, ha, h1])
      · exact .inr h1

/-- A lookup through an `emplace`-style insert either resolves in the
old map or hits the freshly inserted binding. -/
theorem lookupA_insertA {β : Type} (m : List (String × β)) (k : String)
    (v : β) (k2 : String) (w : β) (h : lookupA (insertA m k v) k2 = some w) :
    lookupA m k2 = some w ∨ (k = k2 ∧ w = v) := by
  unfold insertA at h
  split at h
  · exact .inl h
  · exact lookupA_append_single m k v k2 w h

/-- Changing only the current-function argument count keeps every
`Grows` invariant. -/
theorem funcArgsSet_grows (s : CGState) (a : Option Nat) :
    Grows s { s with funcArgs := a } :=
  ⟨rfl, le_refl _, le_refl _, fun _ _ h => h, id, fun _ _ hp => ⟨rfl, hp⟩⟩

/-- The byte appended at the end of the stream is read back at the old
length. -/
theorem getD_append_length (l : List Nat) (a : Nat) :
    (l ++ [a]).getD l.length 0 = a := by
  simp [List.getD, List.getElem?_concat_length]

/-- A state with an empty fixup table trivially has well-placed
fixups. -/
theorem fixOk_of_empty {s : CGState} (h : s.fixups = fun _ => []) : FixOk s := by
  intro L loc hmem
  rw [h] at hmem
  simp at hmem

/-- The global scope built from the state's own function map is
well-formed. -/
theorem scopeOk_global (funcs protos : List (String × Nat)) (s : CGState)
    (hf : s.funcs = funcs) : ScopeOk (.global funcs protos) s := by
  intro name entry h
  simp only [Scope.lookup] at h
  split at h
  · next e he =>
    cases h
    exact ⟨name, by rw [hf]; exact he⟩
  · next he =>
    split at h
    · next fn hfn => simp at h
    · exact Except.noConfusion h

/-- `LowerBlockStmt` keeps the stack depth and grows the state keeping
only function-entry labels pending; when every `let` in the body has
an initialiser its depth assertion cannot fire. -/
theorem lowerBlockStmt_inv (sc : Scope) (body : StmtList) (s : CGState) :
    (∀ s2, lowerBlockStmt sc body s = .ok s2 →
      s2.depth = s.depth ∧
      (ScopeOk sc s → Grows s s2 ∧ UPgrow s s2 (funcLabel s))) ∧
    (body.wellInit = true → lowerBlockStmt sc body s ≠ .error .depthAssert) := by
  have ihb := lowerStmts_inv body (.block sc []) s
  constructor
  · intro s2 h
    simp only [lowerBlockStmt, bind, Except.bind] at h
    split at h
    · exact Except.noConfusion h
    · next p hp =>
      obtain ⟨sM, bs⟩ := p
      split at h
      · exact Except.noConfusion h
      · next s3 h3 =>
        split at h
        · next hdep =>
          cases h
          obtain ⟨g3, hf3, hl3, hd3, hk3⟩ := emitPops_facts _ _ _ h3
          refine ⟨hdep, fun hok => ?_⟩
          obtain ⟨_, hrest⟩ := (ihb.1) sM bs hp
          obtain ⟨g1, up1, _⟩ := hrest (blockScope_scopeOk [] hok)
          exact ⟨grows_trans g1 g3,
            upgrow_mono (upgrow_trans up1
              (upgrow_of_eq (X := fun _ => False) hf3 hl3))
              (fun L hL => hL.elim id False.elim)⟩
        · exact Except.noConfusion h
  · intro hwi h
    simp only [lowerBlockStmt, bind, Except.bind] at h
    split at h
    · next e he =>
      cases h
      exact (ihb.2) hwi he
    · next p hp =>
      obtain ⟨sM, bs⟩ := p
      obtain ⟨hdM0, _⟩ := (ihb.1) sM bs hp
      have hdM := hdM0 hwi
      rw [show Scope.numberOfLocals (Scope.block sc []) = 0 from rfl] at hdM
      have hle : Scope.numberOfLocals bs ≤ sM.depth := by omega
      obtain ⟨s3, h3⟩ := emitPops_ok _ _ hle
      simp only [h3] at h
      obtain ⟨_, _, _, hd3, _⟩ := emitPops_facts _ _ _ h3
      split at h
      · exact Except.noConfusion h
      · next hne => exact hne (by omega)

/-- `LowerFuncDecl`: success forces depth 0 at entry and exit, grows
the state leaving only function-entry labels pending, and binds the
label the function name resolves to; with a well-initialised body and
entry depth 0 its assertions cannot fire. -/
theorem lowerFuncDecl_inv (g : Scope) (name : String) (args : List String)
    (body : StmtList) (s : CGState) :
    (∀ sF, lowerFuncDecl g name args body s = .ok sF →
      s.depth = 0 ∧ sF.depth = 0 ∧
      (ScopeOk g s → Grows s sF ∧ UPgrow s sF (funcLabel s) ∧
        (∀ L, lookupA s.funcs name = some L → isBound sF L))) ∧
    (body.wellInit = true → s.depth = 0 →
      lowerFuncDecl g name args body s ≠ .error .depthAssert) := by
  constructor
  · intro sF h
    simp only [lowerFuncDecl, bind, Except.bind] at h
    split at h
    · exact Except.noConfusion h
    · next entry hentry =>
      split at h
      · next hd0 =>
        split at h
        · exact Except.noConfusion h
        · next s2 h2 =>
          split at h
          · next hd20 =>
            cases h
            obtain ⟨hd2, hrest2⟩ := ((lowerBlockStmt_inv _ body _).1) s2 h2
            refine ⟨hd0, hd20, fun hok => ?_⟩
            have gE : Grows s
                { emitLabel entry s with funcArgs := some args.length } :=
              grows_trans (emitLabel_facts entry s).1 (funcArgsSet_grows _ _)
            obtain ⟨g2, up2⟩ :=
              hrest2 (funcScope_scopeOk _ (scopeOk_mono gE.funcs_eq hok))
            refine ⟨grows_trans gE (grows_trans g2 (funcArgsSet_grows s2 none)),
              ?_, ?_⟩
            · have upE : UPgrow s
                  { emitLabel entry s with funcArgs := some args.length }
                  (fun _ => False) :=
                upgrow_mono (upgrow_trans (emitLabel_facts entry s).2.2.1
                  (upgrow_of_eq (X := fun _ => False) rfl rfl))
                  (fun L hL => hL.elim id id)
              refine upgrow_mono (upgrow_trans upE (upgrow_trans up2
                (upgrow_of_eq (X := fun _ => False) rfl rfl))) ?_
              intro L hL
              exact hL.elim False.elim
                (fun h2 => h2.elim (funcLabel_mono gE.funcs_eq L) False.elim)
            · intro L hlk
              rw [hentry] at hlk
              cases hlk
              exact isBound_mono (grows_trans (funcArgsSet_grows _ _)
                (grows_trans g2 (funcArgsSet_grows s2 none)))
                (emitLabel_facts entry s).2.1
          · exact Except.noConfusion h
      · exact Except.noConfusion h
  · intro hwi hd h
    simp only [lowerFuncDecl, bind, Except.bind] at h
    split at h
    · simp at h
    · next entry hentry =>
      split at h
      · next hd0 =>
        split at h
        · next e he =>
          injection h with h2
          subst h2
          exact ((lowerBlockStmt_inv _ body _).2) hwi he
        · next s2 h2 =>
          split at h
          · exact Except.noConfusion h
          · next hne =>
            obtain ⟨hd2, _⟩ := ((lowerBlockStmt_inv _ body _).1) s2 h2
            exact hne (hd2.trans hd0)
      · next hne0 =>
        exact hne0 hd

/-- The top-level-statement phase only grows the state, leaves only
function-entry labels pending, and keeps scope well-formedness. -/
theorem runTopStmts_inv (mdl : Module) : ∀ (s : CGState) (g : Scope)
    (s2 : CGState) (g2 : Scope),
    runTopStmts mdl (s, g) = .ok (s2, g2) → ScopeOk g s →
    Grows s s2 ∧ UPgrow s s2 (funcLabel s) ∧ ScopeOk g2 s2 := by
  induction mdl with
  | nil =>
    intro s g s2 g2 h hok
    simp only [runTopStmts] at h
    cases h
    exact ⟨grows_refl _, upgrow_of_eq rfl rfl, hok⟩
  | cons item rest ih =>
    intro s g s2 g2 h hok
    cases item with
    | stmtD st =>
      simp only [runTopStmts, bind, Except.bind] at h
      split at h
      · exact Except.noConfusion h
      · next p hp =>
        obtain ⟨sA, gA⟩ := p
        obtain ⟨hdg, hrest⟩ := ((lowerStmt_inv st g s).1) sA gA hp
        obtain ⟨g1, up1, hok1⟩ := hrest hok
        obtain ⟨g2A, up2, hok2⟩ := ih sA gA s2 g2 h hok1
        exact ⟨grows_trans g1 g2A,
          upgrow_mono (upgrow_trans up1 (upgrow_mono up2
            (funcLabel_mono g1.funcs_eq))) (fun L hL => hL.elim id id), hok2⟩
    | funcD n a b =>
      simp only [runTopStmts] at h
      exact ih s g s2 g2 h hok
    | protoD n p =>
      simp only [runTopStmts] at h
      exact ih s g s2 g2 h hok

/-- The function-declaration phase only grows the state, leaves only
function-entry labels pending, and binds the label of every function
name declared in the module. -/
theorem runFuncDecls_inv (mdl : Module) : ∀ (g : Scope) (s sF : CGState),
    runFuncDecls g mdl s = .ok sF → ScopeOk g s →
    Grows s sF ∧ UPgrow s sF (funcLabel s) ∧
    (∀ name L, lookupA s.funcs name = some L →
      (∃ args body, Item.funcD name args body ∈ mdl) → isBound sF L) := by
  induction mdl with
  | nil =>
    intro g s sF h hok
    simp only [runFuncDecls] at h
    cases h
    refine ⟨grows_refl _, upgrow_of_eq rfl rfl, ?_⟩
    intro name L _ hmem
    obtain ⟨args, body, hm⟩ := hmem
    simp at hm
  | cons item rest ih =>
    intro g s sF h hok
    cases item with
    | funcD n a b =>
      simp only [runFuncDecls, bind, Except.bind] at h
      split at h
      · exact Except.noConfusion h
      · next s1 h1 =>
        obtain ⟨hsd, hs1d, hrest1⟩ := ((lowerFuncDecl_inv g n a b s).1) s1 h1
        obtain ⟨g1, up1, hbind1⟩ := hrest1 hok
        obtain ⟨g2, up2, hbind2⟩ :=
          ih g s1 sF h (scopeOk_mono g1.funcs_eq hok)
        refine ⟨grows_trans g1 g2,
          upgrow_mono (upgrow_trans up1 (upgrow_mono up2
            (funcLabel_mono g1.funcs_eq))) (fun L hL => hL.elim id id), ?_⟩
        intro name L hlk hmem
        obtain ⟨args, body, hm⟩ := hmem
        rcases List.mem_cons.mp hm with hm | hm
        · injection hm with he1 he2 he3
          subst he1
          exact isBound_mono g2 (hbind1 L hlk)
        · refine hbind2 name L ?_ ⟨args, body, hm⟩
          rw [g1.funcs_eq]
          exact hlk
    | protoD n p =>
      simp only [runFuncDecls] at h
      obtain ⟨gr, up, hbind⟩ := ih g s sF h hok
      refine ⟨gr, up, ?_⟩
      intro name L hlk hmem
      obtain ⟨args, body, hm⟩ := hmem
      rcases List.mem_cons.mp hm with hm | hm
      · exact Item.noConfusion hm
      · exact hbind name L hlk ⟨args, body, hm⟩
    | stmtD st =>
      simp only [runFuncDecls] at h
      obtain ⟨gr, up, hbind⟩ := ih g s sF h hok
      refine ⟨gr, up, ?_⟩
      intro name L hlk hmem
      obtain ⟨args, body, hm⟩ := hmem
      rcases List.mem_cons.mp hm with hm | hm
      · exact Item.noConfusion hm
      · exact hbind name L hlk ⟨args, body, hm⟩

/-- The pre-pass emits nothing — no code, no depth change, no labels
bound, no fixups, no current function — and every function-map entry
it produces comes from a `FuncDecl` item of the module. -/
theorem prepass_facts (rt : List (String × Nat)) (mdl : Module) :
    ∀ (acc p : CGState × List (String × Nat)),
    List.foldlM (prepassItem rt) acc mdl = .ok p →
    p.1.code = acc.1.code ∧ p.1.depth = acc.1.depth ∧
    p.1.labelToAddress = acc.1.labelToAddress ∧
    p.1.fixups = acc.1.fixups ∧ p.1.funcArgs = acc.1.funcArgs ∧
    (∀ name L, lookupA p.1.funcs name = some L →
      lookupA acc.1.funcs name = some L ∨
      ∃ args body, Item.funcD name args body ∈ mdl) := by
  induction mdl with
  | nil =>
    intro acc p h
    simp only [List.foldlM_nil, pure, Except.pure] at h
    cases h
    exact ⟨rfl, rfl, rfl, rfl, rfl, fun name L hl => .inl hl⟩
  | cons item rest ih =>
    intro acc p h
    simp only [List.foldlM_cons, bind, Except.bind] at h
    split at h
    · exact Except.noConfusion h
    · next acc1 hp1 =>
      have ihr := ih acc1 p h
      obtain ⟨c, d, l, f, fa, fs⟩ := ihr
      cases item with
      | protoD name prim =>
        simp only [prepassItem] at hp1
        split at hp1
        · exact Except.noConfusion hp1
        · next fn hfn =>
          cases hp1
          refine ⟨c, d, l, f, fa, ?_⟩
          intro nm L hl
          rcases fs nm L hl with h1 | hm
          · exact .inl h1
          · obtain ⟨a2, b2, hm2⟩ := hm
            exact .inr ⟨a2, b2, List.mem_cons_of_mem _ hm2⟩
      | funcD name args body =>
        simp only [prepassItem, makeLabel] at hp1
        cases hp1
        refine ⟨c, d, l, f, fa, ?_⟩
        intro nm L hl
        rcases fs nm L hl with h1 | hm
        · have h2 : lookupA (insertA acc.1.funcs name (acc.1.nextLabel + 1))
              nm = some L := h1
          rcases lookupA_insertA _ _ _ _ _ h2 with h3 | ⟨he, _⟩
          · exact .inl h3
          · refine .inr ⟨args, body, ?_⟩
            rw [← he]
            exact List.mem_cons_self _ _
        · obtain ⟨a2, b2, hm2⟩ := hm
          exact .inr ⟨a2, b2, List.mem_cons_of_mem _ hm2⟩
      | stmtD st =>
        simp only [prepassItem] at hp1
        cases hp1
        refine ⟨c, d, l, f, fa, ?_⟩
        intro nm L hl
        rcases fs nm L hl with h1 | hm
        · exact .inl h1
        · obtain ⟨a2, b2, hm2⟩ := hm
          exact .inr ⟨a2, b2, List.mem_cons_of_mem _ hm2⟩

end InvariantLemmas

section TranslateTheorems

open Codegen

/-- C6: `Translate` pre-passes the module (emitting no bytes, binding
prototypes and minting a function label per `FuncDecl`), lowers the
top-level statements in source order, emits one STOP — still present
at that offset in the final stream, as is every earlier byte clear of
the pending patch windows — then lowers the function bodies after it,
and finishes with no dangling fixups: every label with pending fixup
sites is bound. -/
theorem translate_structure (rt : List (String × Nat)) (mdl : Module)
    (sF : CGState) (h : translate rt mdl = .ok sF) :
    ∃ pre protos s2 g2,
      prepass rt mdl = .ok (pre, protos) ∧
      pre.code = [] ∧ pre.fixups = (fun _ => []) ∧ pre.labelToAddress = [] ∧
      runTopStmts mdl (pre, .global pre.funcs protos) = .ok (s2, g2) ∧
      runFuncDecls g2 mdl (emitOp .STOP s2) = .ok sF ∧
      sF.code.getD s2.code.length 0 = Opcode.STOP.toByte ∧
      s2.code.length < sF.code.length ∧
      (∀ i, i < s2.code.length → PatchSafe i (emitOp .STOP s2) →
        sF.code.getD i 0 = s2.code.getD i 0) ∧
      (∀ L, sF.fixups L ≠ [] → isBound sF L) := by
  unfold Codegen.translate at h
  simp only [bind, Except.bind] at h
  split at h
  · exact Except.noConfusion h
  · next pp hpp =>
    obtain ⟨pre, protos⟩ := pp
    split at h
    · exact Except.noConfusion h
    · next q hq =>
      obtain ⟨s2, g2⟩ := q
      obtain ⟨hc, hd, hl, hf, hfa, hfs⟩ :=
        prepass_facts rt mdl (initState, []) (pre, protos) hpp
      have hok0 : ScopeOk (.global pre.funcs protos) pre :=
        scopeOk_global _ _ _ rfl
      obtain ⟨gT, upT, hokT⟩ := runTopStmts_inv mdl pre _ s2 g2 hq hok0
      obtain ⟨gF, upF, hbF⟩ := runFuncDecls_inv mdl g2 (emitOp .STOP s2) sF h
        (scopeOk_mono rfl hokT)
      have hfix2 : FixOk s2 := gT.fix_ok (fixOk_of_empty hf)
      have hps : PatchSafe s2.code.length (emitOp .STOP s2) := by
        intro L loc hmem
        have := hfix2 L loc hmem
        omega
      have hlenS : (emitOp .STOP s2).code.length = s2.code.length + 1 := by
        simp [emitOp, emitBytes]
      have hkeep := gF.byte_keep s2.code.length (by omega) hps
      refine ⟨pre, protos, s2, g2, hpp, hc, hf, hl, hq, h, ?_, ?_, ?_, ?_⟩
      · rw [hkeep.1]
        exact getD_append_length s2.code _
      · have := gF.len_le
        omega
      · intro i hi hpsi
        have hk := gF.byte_keep i (by omega) hpsi
        rw [hk.1]
        exact List.getD_append _ _ _ _ hi
      · intro L hfixL
        by_cases hb : isBound sF L
        · exact hb
        · exfalso
          have hup : UP sF L := ⟨hfixL, hb⟩
          have hfl : funcLabel pre L := by
            rcases upF L hup with hup2 | hfl
            · rcases upT L hup2 with hup3 | hfl
              · exact (hup3.1 (by rw [hf]; rfl)).elim
              · exact hfl
            · exact funcLabel_mono gT.funcs_eq L hfl
          obtain ⟨nm, hnm⟩ := hfl
          rcases hfs nm L hnm with hinit | hmem
          · simp [initState, lookupA] at hinit
          · refine hb (hbF nm L ?_ hmem)
            rw [show (emitOp Opcode.STOP s2).funcs = pre.funcs from gT.funcs_eq]
            exact hnm

/-- Witness for `translate_structure`: the translation of `demoModule`
succeeds and exhibits the phase structure. -/
theorem translate_structure_witness :
    ∃ sF, translate [] demoModule = .ok sF ∧
      ∃ pre protos s2 g2,
        prepass [] demoModule = .ok (pre, protos) ∧
        pre.code = [] ∧ pre.fixups = (fun _ => []) ∧ pre.labelToAddress = [] ∧
        runTopStmts demoModule (pre, .global pre.funcs protos) = .ok (s2, g2) ∧
        runFuncDecls g2 demoModule (emitOp .STOP s2) = .ok sF ∧
        sF.code.getD s2.code.length 0 = Opcode.STOP.toByte ∧
        s2.code.length < sF.code.length ∧
        (∀ i, i < s2.code.length → PatchSafe i (emitOp .STOP s2) →
          sF.code.getD i 0 = s2.code.getD i 0) ∧
        (∀ L, sF.fixups L ≠ [] → isBound sF L) :=
  ⟨_, rfl, translate_structure [] demoModule _ rfl⟩

/-- C8 (amended): when every `let` in the body carries an initialiser,
`LowerBlockStmt` exits at exactly its entry depth and its depth
assertions cannot fire, and a successful `LowerFuncDecl` has depth 0
at entry and at exit of the body, also without tripping a depth
assertion from entry depth 0.  A `let` without an initialiser breaks
the unrestricted claim (`block_letNoInit_asserts`). -/
theorem blockStmt_funcDecl_depth (sc : Scope) (body : StmtList) (s : CGState)
    (hwi : body.wellInit = true) :
    (∀ s2, lowerBlockStmt sc body s = .ok s2 → s2.depth = s.depth) ∧
    lowerBlockStmt sc body s ≠ .error .depthAssert ∧
    (∀ g name args sF, lowerFuncDecl g name args body s = .ok sF →
      s.depth = 0 ∧ sF.depth = 0) ∧
    (∀ g name args, s.depth = 0 →
      lowerFuncDecl g name args body s ≠ .error .depthAssert) :=
  ⟨fun s2 h => (((lowerBlockStmt_inv sc body s).1) s2 h).1,
   (lowerBlockStmt_inv sc body s).2 hwi,
   fun g name args sF h =>
     ⟨(((lowerFuncDecl_inv g name args body s).1) sF h).1,
      (((lowerFuncDecl_inv g name args body s).1) sF h).2.1⟩,
   fun g name args hd => (lowerFuncDecl_inv g name args body s).2 hwi hd⟩

/-- Witness for `blockStmt_funcDecl_depth` on a one-statement block. -/
theorem blockStmt_funcDecl_depth_witness :
    StmtList.wellInit (.cons (.exprS (.intE 2)) .nil) = true ∧
    lowerBlockStmt (.global [] []) (.cons (.exprS (.intE 2)) .nil) initState
      ≠ .error .depthAssert :=
  ⟨rfl, (blockStmt_funcDecl_depth (.global [] [])
    (.cons (.exprS (.intE 2)) .nil) initState rfl).2.1⟩

/-- A block whose only statement is a `let` without an initialiser
adds a local without raising the depth, so the block's closing POP
loop fires the depth assertion: the unrestricted depth claim fails on
this input. -/
theorem block_letNoInit_asserts :
    lowerBlockStmt (.global [] []) (.cons (.letS "x" "int" .none) .nil)
      initState = .error .depthAssert := rfl

end TranslateTheorems
